import Mathlib

/-!
AP_ROMFS: embedded read-only file store.

A shallow embedding of `libraries/AP_ROMFS/AP_ROMFS.cpp` and the properties
proved about it.

Conventions of the embedding.

* A byte buffer (`uint8_t *`) is a `List Nat`, the bytes of the object the
  pointer designates.  A load outside the object reads `0` and a store outside
  the object is dropped (both are undefined in C).
* The output buffer of `find_decompress` is the memory its pointer designates
  at the indices `0` to `decompressed_size`, the indices the code stores to:
  the store of the sentinel is performed whatever number of bytes was
  requested from `malloc`; that number is recorded apart, in `malloc_arg`.
* A C string is the list of its characters before the terminating NUL.
* `uint16_t` and `uint32_t` arithmetic is arithmetic on `Nat` reduced
  modulo `2 ^ 16` and `2 ^ 32`.
* A reference parameter (`uint32_t &size`) is passed in and returned.
* Loops whose counter can wrap around take a fuel argument and return `none`
  when the fuel runs out.
-/

namespace AP_ROMFS

/-! ## Data model -/

/-- Modelled from the spec: the record `struct embedded_file` of `AP_ROMFS.h`,
one entry of the table `AP_ROMFS::files`, with the fields `filename`, `size`,
`crc` and `contents` that `AP_ROMFS.cpp` reads (the spec's Entry: path,
compressed size, crc32 of the decompressed content, compressed bytes). -/
structure embedded_file where
  filename : List Char
  size : Nat
  crc : Nat
  contents : List Nat
deriving DecidableEq, Repr

/-! ## C library string functions -/

/-- The libc `strcmp`: zero exactly when both strings are equal, negative or
positive according to the first differing character. -/
def strcmp : List Char → List Char → Int
  | [], [] => 0
  | [], _ :: _ => -1
  | _ :: _, [] => 1
  | a :: s1, b :: s2 =>
    if a = b then strcmp s1 s2 else if a.toNat < b.toNat then -1 else 1

/-- The libc `strlen`. -/
def strlen (s : List Char) : Nat := s.length

/-- The libc `strncmp`: compares at most `n` characters, stopping at the
terminator of either string. -/
def strncmp : List Char → List Char → Nat → Int
  | _, _, 0 => 0
  | [], [], _ + 1 => 0
  | [], _ :: _, _ + 1 => -1
  | _ :: _, [], _ + 1 => 1
  | a :: s1, b :: s2, n + 1 =>
    if a = b then strncmp s1 s2 n else if a.toNat < b.toNat then -1 else 1

/-- The character `s[k]` of a C string; index `strlen s` holds the terminating
NUL. -/
def char_at (s : List Char) (k : Nat) : Char := s.getD k (Char.ofNat 0)

/-! ## The instruction filter `armthumb_code` -/

/-- The value `src` assembled from the four bytes of a matched window
(source lines 44-49), after the left shift by one. -/
def armthumb_src (b0 b1 b2 b3 : Nat) : Nat :=
  let src := ((((b1 &&& 7) <<< 19) ||| (b0 <<< 11) ||| ((b3 &&& 7) <<< 8) ||| b2)) % 2 ^ 32
  (src <<< 1) % 2 ^ 32

/-- The value `dest` of source lines 51-57, after the right shift by one. -/
def armthumb_dest (now_pos : Nat) (is_encoder : Bool) (i src : Nat) : Nat :=
  let dest :=
    if is_encoder then
      (now_pos + i % 2 ^ 32 + 4 + src) % 2 ^ 32
    else
      (src + 2 ^ 32 - (now_pos + i % 2 ^ 32 + 4) % 2 ^ 32) % 2 ^ 32
  dest >>> 1

/-- The four stores of source lines 58-61, in source order. -/
def armthumb_store (buffer : List Nat) (i dest : Nat) : List Nat :=
  let buffer := buffer.set (i + 1) (0xF0 ||| ((dest >>> 19) &&& 0x7))
  let buffer := buffer.set (i + 0) ((dest >>> 11) % 256)
  let buffer := buffer.set (i + 3) (0xF8 ||| ((dest >>> 8) &&& 0x7))
  buffer.set (i + 2) (dest % 256)

/-- The `for` loop of `armthumb_code` started at index `i`; it returns the
buffer and the final value of `i`.  Each iteration consumes one unit of
fuel. -/
def armthumb_loop (now_pos : Nat) (is_encoder : Bool) (size : Nat) :
    Nat → Nat → List Nat → List Nat × Nat
  | 0, i, buffer => (buffer, i)
  | fuel + 1, i, buffer =>
    if i + 4 ≤ size then
      if (buffer.getD (i + 1) 0 &&& 0xF8) = 0xF0
          ∧ (buffer.getD (i + 3) 0 &&& 0xF8) = 0xF8 then
        let src := armthumb_src (buffer.getD (i + 0) 0) (buffer.getD (i + 1) 0)
          (buffer.getD (i + 2) 0) (buffer.getD (i + 3) 0)
        let dest := armthumb_dest now_pos is_encoder i src
        let buffer := armthumb_store buffer i dest
        armthumb_loop now_pos is_encoder size fuel (i + 2 + 2) buffer
      else
        armthumb_loop now_pos is_encoder size fuel (i + 2) buffer
    else
      (buffer, i)

/-- The function `armthumb_code(simple, now_pos, is_encoder, buffer, size)`:
the buffer after the call and the returned index.  The loop advances `i` by
at least two per iteration, so `size` units of fuel are never used up. -/
def armthumb_code (now_pos : Nat) (is_encoder : Bool) (buffer : List Nat) (size : Nat) :
    List Nat × Nat :=
  armthumb_loop now_pos is_encoder size size 0 buffer

/-! ## `find_file` -/

/-- What `find_file` hands back: the returned pointer (`none` is `nullptr`)
and the reference parameters `size` and `crc` after the call. -/
structure find_file_result where
  ret : Option (List Nat)
  size : Nat
  crc : Nat
deriving DecidableEq, Repr

/-- The loop of `find_file` at counter value `i` (a `uint16_t`). -/
def find_file_loop (files : List embedded_file) (name : List Char) (size crc : Nat) :
    Nat → Nat → Option find_file_result
  | 0, _ => none
  | fuel + 1, i =>
    if h : i < files.length then
      if strcmp name files[i].filename = 0 then
        some ⟨some files[i].contents, files[i].size, files[i].crc⟩
      else
        find_file_loop files name size crc fuel ((i + 1) % 2 ^ 16)
    else
      some ⟨none, size, crc⟩

/-- The function `AP_ROMFS::find_file(name, size, crc)`. -/
def find_file (files : List embedded_file) (name : List Char) (fuel : Nat) (size crc : Nat) :
    Option find_file_result :=
  find_file_loop files name size crc fuel 0

/-! ## `dir_list` -/

/-- What `dir_list` hands back: the returned path (`none` is `nullptr`) and
the reference parameter `ofs` after the call. -/
structure dir_list_result where
  ret : Option (List Char)
  ofs : Nat
deriving DecidableEq, Repr

/-- The function `AP_ROMFS::dir_list(dirname, ofs)`; its loop runs on the
caller's `uint16_t` cursor `ofs`. -/
def dir_list (files : List embedded_file) (dirname : List Char) :
    Nat → Nat → Option dir_list_result
  | 0, _ => none
  | fuel + 1, ofs =>
    if h : ofs < files.length then
      if strncmp dirname files[ofs].filename (strlen dirname) = 0
          && char_at files[ofs].filename (strlen dirname) = '/' then
        some ⟨some files[ofs].filename, (ofs + 1) % 2 ^ 16⟩
      else
        dir_list files dirname fuel ((ofs + 1) % 2 ^ 16)
    else
      some ⟨none, ofs⟩

/-! ## `find_decompress` -/

/-- Modelled from the spec: the external collaborators of `find_decompress`,
which the repository keeps outside `AP_ROMFS.cpp`: the host memory allocator,
the streaming inflate decoder of `tinf.h` and `crc32_small` of `AP_Math/crc.h`,
all three black boxes. -/
structure Host where
  /-- The indeterminate value of the local `crc` before `find_file` sets it. -/
  crc_uninit : Nat
  /-- Outcome of `malloc(k)` for the output buffer: `none` is a null pointer,
  otherwise the indeterminate initial byte at every index of the new object. -/
  malloc_data : Nat → Option (Nat → Nat)
  /-- Whether `malloc(sizeof(TINF_DATA))` returns a non-null pointer. -/
  malloc_tinf : Bool
  /-- The result code `TINF_OK` of `tinf.h`. -/
  TINF_OK : Int
  /-- The decoder `uzlib_uncompress` run on the bytes between `source` and
  `source_limit` with output limit `destSize`: its result code and the bytes
  it produces. -/
  uzlib_uncompress : List Nat → Nat → Int × List Nat
  /-- The checksum `crc32_small(crc, buf, size)` of the `size` bytes `buf`. -/
  crc32_small : Nat → List Nat → Nat

/-- What `find_decompress` hands back: the returned pointer (`none` is
`nullptr`) and the reference parameter `size` after the call.  Two ghost
fields record the calls made on the way: the byte count passed to the first
`malloc`, and the source bytes and `destSize` given to the inflater. -/
structure find_decompress_result where
  ret : Option (List Nat)
  size : Nat
  malloc_arg : Option Nat
  uzlib_args : Option (List Nat × Nat)
deriving DecidableEq, Repr

/-- The trailer read of source lines 104-105:
`p = &compressed_data[compressed_size-4]` and
`p[0] | p[1] << 8 | p[2] << 16 | p[3] << 24`. -/
def trailer (compressed_data : List Nat) (compressed_size : Nat) : Nat :=
  let p := fun k => compressed_data.getD ((compressed_size + 2 ^ 32 - 4) % 2 ^ 32 + k) 0
  (p 0 ||| (p 1 <<< 8) ||| (p 2 <<< 16) ||| (p 3 <<< 24)) % 2 ^ 32

/-- The argument of the first `malloc` (source line 107):
`decompressed_size + 1`, computed in `uint32_t`. -/
def malloc_request (decompressed_size : Nat) : Nat := (decompressed_size + 1) % 2 ^ 32

/-- Memory not yet written: `k` bytes of indeterminate content. -/
def fresh_buffer (k : Nat) (garbage : Nat → Nat) : List Nat :=
  (List.range k).map (fun j => garbage j % 256)

/-- The memory `decompressed_data` designates after source lines 107-113, at
the indices `0` to `decompressed_size`: indeterminate bytes, then the store
`decompressed_data[decompressed_size] = 0`, which line 113 performs whatever
`malloc_request` asked for. -/
def output_buffer (decompressed_size : Nat) (garbage : Nat → Nat) : List Nat :=
  (fresh_buffer (decompressed_size + 1) garbage).set decompressed_size 0

/-- The source bytes handed to the inflater (source lines 122-123): from
`compressed_data` up to `compressed_data + compressed_size - 4`. -/
def inflater_source (compressed_data : List Nat) (compressed_size : Nat) : List Nat :=
  compressed_data.take (compressed_size - 4)

/-- Modelled from the spec: the inflater writes the bytes it produces into
the output buffer from index 0 on (here `out` into `dest`). -/
def store_output (out dest : List Nat) : List Nat :=
  out.take dest.length ++ dest.drop out.length

/-- The output buffer after the inflater has run (source lines 120-130); the
inflater writes at most `destSize` bytes. -/
def inflated_buffer (h : Host) (compressed_data : List Nat) (compressed_size : Nat)
    (garbage : Nat → Nat) : List Nat :=
  let decompressed_size := trailer compressed_data compressed_size
  let res := h.uzlib_uncompress (inflater_source compressed_data compressed_size)
    decompressed_size
  store_output (res.2.take decompressed_size) (output_buffer decompressed_size garbage)

/-- The output buffer after the decode filter (source line 139). -/
def filtered_buffer (h : Host) (compressed_data : List Nat) (compressed_size : Nat)
    (garbage : Nat → Nat) : List Nat :=
  (armthumb_code 0 false (inflated_buffer h compressed_data compressed_size garbage)
    (trailer compressed_data compressed_size)).1

/-- The compressed-storage branch of `find_decompress` (source lines 103-147),
entered with the pointer, size and crc that `find_file` returned and the
caller's current `size`. -/
def decompress_entry (h : Host) (compressed_data : List Nat)
    (compressed_size crc : Nat) (size : Nat) : find_decompress_result :=
  let decompressed_size := trailer compressed_data compressed_size
  let request := malloc_request decompressed_size
  match h.malloc_data request with
  | none => ⟨none, size, some request, none⟩
  | some garbage =>
    if h.malloc_tinf = false then
      ⟨none, size, some request, none⟩
    else
      let source := inflater_source compressed_data compressed_size
      let res := h.uzlib_uncompress source decompressed_size
      if res.1 ≠ h.TINF_OK then
        ⟨none, size, some request, some (source, decompressed_size)⟩
      else
        let decompressed_data :=
          filtered_buffer h compressed_data compressed_size garbage
        if h.crc32_small 0 (decompressed_data.take decompressed_size) ≠ crc then
          ⟨none, size, some request, some (source, decompressed_size)⟩
        else
          ⟨some decompressed_data, decompressed_size, some request,
            some (source, decompressed_size)⟩

/-- The function `AP_ROMFS::find_decompress(name, size)`; `uncompressed` tells
whether the build defines `HAL_ROMFS_UNCOMPRESSED`. -/
def find_decompress (h : Host) (uncompressed : Bool) (files : List embedded_file)
    (name : List Char) (fuel : Nat) (size : Nat) : Option find_decompress_result :=
  match find_file files name fuel 0 h.crc_uninit with
  | none => none
  | some found =>
    match found.ret with
    | none => some ⟨none, size, none, none⟩
    | some compressed_data =>
      if uncompressed then
        some ⟨some compressed_data, found.size, none, none⟩
      else
        some (decompress_entry h compressed_data found.size found.crc size)

/-! ## Vocabulary of the properties -/

/-- A window matches at `i`: the test of source lines 42-43. -/
def window_match (buffer : List Nat) (i : Nat) : Prop :=
  (buffer.getD (i + 1) 0 &&& 0xF8) = 0xF0 ∧ (buffer.getD (i + 3) 0 &&& 0xF8) = 0xF8

instance (buffer : List Nat) (i : Nat) : Decidable (window_match buffer i) :=
  inferInstanceAs (Decidable (_ ∧ _))

/-- The four-byte little-endian encoding of `n`. -/
def le32 (n : Nat) : List Nat :=
  [n % 256, n / 2 ^ 8 % 256, n / 2 ^ 16 % 256, n / 2 ^ 24 % 256]

/-- The result `find_file` reports for an optional table entry. -/
def find_file_answer (size crc : Nat) : Option embedded_file → find_file_result
  | some e => ⟨some e.contents, e.size, e.crc⟩
  | none => ⟨none, size, crc⟩

/-- The first entry of the table whose filename is `name`. -/
def first_entry (files : List embedded_file) (name : List Char) : Option embedded_file :=
  files.find? (fun e => decide (e.filename = name))

/-- A path lies in directory `dirname`: it is `dirname`, a separator and a
(possibly empty) suffix. -/
def in_dir (dirname path : List Char) : Prop := dirname ++ ['/'] <+: path

instance (dirname path : List Char) : Decidable (in_dir dirname path) :=
  inferInstanceAs (Decidable (dirname ++ ['/'] <+: path))

/-- The scan of `dir_list` over the entries that remain from the cursor on. -/
def dir_scan (dirname : List Char) : Nat → List embedded_file → dir_list_result
  | ofs, [] => ⟨none, ofs⟩
  | ofs, e :: rest =>
    if in_dir dirname e.filename then ⟨some e.filename, ofs + 1⟩
    else dir_scan dirname (ofs + 1) rest

/-- The enumeration a caller runs on top of `dir_list`: call it with the
threaded cursor until it returns `nullptr`, collecting the returned paths.
`calls` bounds the number of calls and `fuel` is handed to each call. -/
def dir_list_all (files : List embedded_file) (dirname : List Char) (fuel : Nat) :
    Nat → Nat → Option (List (List Char))
  | 0, _ => none
  | calls + 1, ofs =>
    match dir_list files dirname fuel ofs with
    | none => none
    | some r =>
      match r.ret with
      | none => some []
      | some path => (dir_list_all files dirname fuel calls r.ofs).map (fun l => path :: l)

/-- The table with a stored crc replaced at one entry. -/
def with_crc (e : embedded_file) (crc : Nat) : embedded_file :=
  { e with crc := crc }

/-- The four checks that let the compressed branch return a buffer. -/
def checks_pass (h : Host) (data : List Nat) (size crc : Nat) (garbage : Nat → Nat) : Prop :=
  h.malloc_data (malloc_request (trailer data size)) = some garbage
    ∧ h.malloc_tinf = true
    ∧ (h.uzlib_uncompress (inflater_source data size) (trailer data size)).1 = h.TINF_OK
    ∧ h.crc32_small 0 ((filtered_buffer h data size garbage).take (trailer data size)) = crc

/-! ## Concrete inputs -/

/-- A host whose allocations succeed, whose inflater copies its source bytes
to the output and whose checksum is the byte sum modulo `2 ^ 32`. -/
def sample_host : Host where
  crc_uninit := 0
  malloc_data := fun _ => some (fun _ => 0xAA)
  malloc_tinf := true
  TINF_OK := 0
  uzlib_uncompress := fun source _ => (0, source)
  crc32_small := fun crc buf => (crc + buf.sum) % 2 ^ 32

/-- The same host with a failing decoder-state allocation. -/
def sample_host_no_tinf : Host := { sample_host with malloc_tinf := false }

/-- A plaintext holding one long-branch instruction pair at offset 0. -/
def sample_plain : List Nat := [0, 0xF0, 4, 0xF8, 1]

/-- An entry storing `sample_plain`: the filtered bytes, then the trailer. -/
def sample_entry : embedded_file where
  filename := ['f', 'w', '/', 'a']
  size := 9
  crc := 493
  contents := [0, 0xF0, 6, 0xF8, 1, 5, 0, 0, 0]

/-- An entry storing the empty file. -/
def sample_empty : embedded_file where
  filename := ['f', 'w', '/', 'e']
  size := 7
  crc := 0
  contents := [1, 2, 3, 0, 0, 0, 0]

/-- A table of three entries. -/
def sample_files : List embedded_file :=
  [⟨['f', 'w'], 4, 0, [0, 0, 0, 0]⟩, sample_entry, sample_empty]

/-- A table whose only entry has the trailer `0xFFFFFFFF`. -/
def overflow_files : List embedded_file :=
  [⟨['x'], 4, 0, [0xFF, 0xFF, 0xFF, 0xFF]⟩]

/-- A table for the enumeration: two entries below `a/b`, one named `a/b`,
one named `a/bc`, one below `a/bc`. -/
def listing_files : List embedded_file :=
  [⟨['a', '/', 'b', '/', 'x'], 0, 0, []⟩, ⟨['a', '/', 'b'], 0, 0, []⟩,
    ⟨['a', '/', 'b', 'c'], 0, 0, []⟩, ⟨['a', '/', 'b', '/'], 0, 0, []⟩,
    ⟨['a', '/', 'b', 'c', '/', 'y'], 0, 0, []⟩]

/-! ## `free` -/

/-- The function `AP_ROMFS::free(data)` as a step on the allocator's state:
`host_free` is the allocator's `::free`, a black box, called unless the build
defines `HAL_ROMFS_UNCOMPRESSED`. -/
def free {σ : Type} (uncompressed : Bool) (host_free : σ → List Nat → σ) (heap : σ)
    (data : List Nat) : σ :=
  if uncompressed then heap else host_free heap data

/-! ## Ghost traces and the two-byte-stride variant -/

/-- The buffer indices `armthumb_code` loads from or stores to, in program
order, for the loop started at index `i`: the test of source lines 42-43
(`buffer[i + 3]` is loaded only when the first comparison holds), then the
four loads of lines 44-47 and the four stores of lines 58-61. -/
def armthumb_accesses (now_pos : Nat) (is_encoder : Bool) (size : Nat) :
    Nat → Nat → List Nat → List Nat
  | 0, _, _ => []
  | fuel + 1, i, buffer =>
    if i + 4 ≤ size then
      if (buffer.getD (i + 1) 0 &&& 0xF8) = 0xF0 then
        if (buffer.getD (i + 3) 0 &&& 0xF8) = 0xF8 then
          let src := armthumb_src (buffer.getD (i + 0) 0) (buffer.getD (i + 1) 0)
            (buffer.getD (i + 2) 0) (buffer.getD (i + 3) 0)
          let dest := armthumb_dest now_pos is_encoder i src
          [i + 1, i + 3, i + 1, i + 0, i + 3, i + 2, i + 1, i + 0, i + 3, i + 2]
            ++ armthumb_accesses now_pos is_encoder size fuel (i + 2 + 2)
              (armthumb_store buffer i dest)
        else
          [i + 1, i + 3] ++ armthumb_accesses now_pos is_encoder size fuel (i + 2) buffer
      else
        [i + 1] ++ armthumb_accesses now_pos is_encoder size fuel (i + 2) buffer
    else
      []

/-- The variant of the loop of `armthumb_code` that always advances by two
bytes: the source loop without the additional `i += 2` after a match. -/
def armthumb_loop_stride2 (now_pos : Nat) (is_encoder : Bool) (size : Nat) :
    Nat → Nat → List Nat → List Nat × Nat
  | 0, i, buffer => (buffer, i)
  | fuel + 1, i, buffer =>
    if i + 4 ≤ size then
      if (buffer.getD (i + 1) 0 &&& 0xF8) = 0xF0
          ∧ (buffer.getD (i + 3) 0 &&& 0xF8) = 0xF8 then
        let src := armthumb_src (buffer.getD (i + 0) 0) (buffer.getD (i + 1) 0)
          (buffer.getD (i + 2) 0) (buffer.getD (i + 3) 0)
        let dest := armthumb_dest now_pos is_encoder i src
        let buffer := armthumb_store buffer i dest
        armthumb_loop_stride2 now_pos is_encoder size fuel (i + 2) buffer
      else
        armthumb_loop_stride2 now_pos is_encoder size fuel (i + 2) buffer
    else
      (buffer, i)

/-- The variant of `armthumb_code` built on `armthumb_loop_stride2`. -/
def armthumb_code_stride2 (now_pos : Nat) (is_encoder : Bool) (buffer : List Nat)
    (size : Nat) : List Nat × Nat :=
  armthumb_loop_stride2 now_pos is_encoder size size 0 buffer

/-- The loads `files[ofs].filename[dlen]` that `dir_list` performs, in program
order, each as the path and the index loaded: the right operand of `&&` in
source lines 168-169 is evaluated only when `strncmp` returned 0. -/
def dir_list_reads (files : List embedded_file) (dirname : List Char) :
    Nat → Nat → List (List Char × Nat)
  | 0, _ => []
  | fuel + 1, ofs =>
    if h : ofs < files.length then
      if strncmp dirname files[ofs].filename (strlen dirname) = 0 then
        (files[ofs].filename, strlen dirname) ::
          (if char_at files[ofs].filename (strlen dirname) = '/' then []
            else dir_list_reads files dirname fuel ((ofs + 1) % 2 ^ 16))
      else
        dir_list_reads files dirname fuel ((ofs + 1) % 2 ^ 16)
    else
      []

/-- A table of 65536 entries, each named `d/f`. -/
def wide_files : List embedded_file :=
  List.replicate 65536 ⟨['d', '/', 'f'], 0, 0, []⟩

/-- A table of 65536 entries, each named `e`. -/
def wide_files_other : List embedded_file :=
  List.replicate 65536 ⟨['e'], 0, 0, []⟩

/-! ## Bit-level facts -/

theorem and7 (b : Nat) : b &&& 7 = b % 8 := Nat.and_pow_two_sub_one_eq_mod b 3

set_option maxRecDepth 100000 in
theorem top5_F0 : ∀ b, b < 256 → ((b &&& 0xF8) = 0xF0 ↔ b / 8 = 30) := by decide

set_option maxRecDepth 100000 in
theorem top5_F8 : ∀ b, b < 256 → ((b &&& 0xF8) = 0xF8 ↔ b / 8 = 31) := by decide

theorem or_F0 : ∀ x, x < 8 → 0xF0 ||| x = 240 + x := by decide
theorem or_F8 : ∀ x, x < 8 → 0xF8 ||| x = 248 + x := by decide

theorem or_eq_add (i a b : Nat) (hb : b < 2 ^ i) : a * 2 ^ i ||| b = a * 2 ^ i + b := by
  rw [Nat.mul_comm, ← Nat.mul_add_lt_is_or hb]

theorem armthumb_src_eq (b0 b1 b2 b3 : Nat) (h0 : b0 < 256) (h2 : b2 < 256) :
    armthumb_src b0 b1 b2 b3 = 2 * ((b1 % 8) * 2 ^ 19 + b0 * 2 ^ 11 + (b3 % 8) * 2 ^ 8 + b2) := by
  unfold armthumb_src
  simp only [and7, Nat.shiftLeft_eq]
  have e1 : (b1 % 8) * 2 ^ 19 ||| b0 * 2 ^ 11 = (b1 % 8) * 2 ^ 19 + b0 * 2 ^ 11 :=
    or_eq_add 19 _ _ (by omega)
  have e2 : (b1 % 8) * 2 ^ 19 + b0 * 2 ^ 11 ||| (b3 % 8) * 2 ^ 8
      = (b1 % 8) * 2 ^ 19 + b0 * 2 ^ 11 + (b3 % 8) * 2 ^ 8 := by
    have := or_eq_add 11 ((b1 % 8) * 2 ^ 8 + b0) ((b3 % 8) * 2 ^ 8) (by omega)
    have e : ((b1 % 8) * 2 ^ 8 + b0) * 2 ^ 11 = (b1 % 8) * 2 ^ 19 + b0 * 2 ^ 11 := by ring
    rw [e] at this
    exact this
  have e3 : (b1 % 8) * 2 ^ 19 + b0 * 2 ^ 11 + (b3 % 8) * 2 ^ 8 ||| b2
      = (b1 % 8) * 2 ^ 19 + b0 * 2 ^ 11 + (b3 % 8) * 2 ^ 8 + b2 := by
    have := or_eq_add 8 ((b1 % 8) * 2 ^ 11 + b0 * 2 ^ 3 + b3 % 8) b2 (by omega)
    have e : ((b1 % 8) * 2 ^ 11 + b0 * 2 ^ 3 + b3 % 8) * 2 ^ 8
        = (b1 % 8) * 2 ^ 19 + b0 * 2 ^ 11 + (b3 % 8) * 2 ^ 8 := by ring
    rw [e] at this
    exact this
  rw [e1, e2, e3]
  omega

/-- The byte stored at `buffer[i+1]` for a value `dest`. -/
theorem store1_eq (d : Nat) : 0xF0 ||| ((d >>> 19) &&& 0x7) = 240 + d / 2 ^ 19 % 8 := by
  rw [and7, Nat.shiftRight_eq_div_pow, or_F0 _ (Nat.mod_lt _ (by decide))]

theorem store3_eq (d : Nat) : 0xF8 ||| ((d >>> 8) &&& 0x7) = 248 + d / 2 ^ 8 % 8 := by
  rw [and7, Nat.shiftRight_eq_div_pow, or_F8 _ (Nat.mod_lt _ (by decide))]

theorem store0_eq (d : Nat) : (d >>> 11) % 256 = d / 2 ^ 11 % 256 := by
  rw [Nat.shiftRight_eq_div_pow]

/-- Window arithmetic: at an even position, re-coding a coded window in the
opposite direction gives back the four bytes. -/
theorem window_roundtrip (np i : Nat) (e : Bool) (b0 b1 b2 b3 : Nat)
    (h0 : b0 < 256) (h2 : b2 < 256) (h1 : b1 / 8 = 30) (h3 : b3 / 8 = 31)
    (hnp : np % 2 = 0) (hi : i % 2 = 0) (d d1 : Nat)
    (hd : d = armthumb_dest np e i (armthumb_src b0 b1 b2 b3))
    (hd1 : d1 = armthumb_dest np (!e) i (armthumb_src (d / 2 ^ 11 % 256) (240 + d / 2 ^ 19 % 8)
      (d % 256) (248 + d / 2 ^ 8 % 8))) :
    d1 / 2 ^ 11 % 256 = b0 ∧ 240 + d1 / 2 ^ 19 % 8 = b1 ∧ d1 % 256 = b2
      ∧ 248 + d1 / 2 ^ 8 % 8 = b3 := by
  rw [armthumb_src_eq _ _ _ _ (by omega) (by omega)] at hd1
  rw [armthumb_src_eq _ _ _ _ h0 h2] at hd
  cases e
  · simp only [armthumb_dest, Nat.shiftRight_eq_div_pow] at hd hd1
    simp at hd hd1
    omega
  · simp only [armthumb_dest, Nat.shiftRight_eq_div_pow] at hd hd1
    simp at hd hd1
    omega

/-! ## The filter loop: frame lemmas -/

theorem getD_set_ne (l : List Nat) (j k v : Nat) (h : j ≠ k) :
    (l.set j v).getD k 0 = l.getD k 0 := by
  simp [List.getElem?_set, h]

theorem getD_set_eq (l : List Nat) (j v : Nat) (h : j < l.length) :
    (l.set j v).getD j 0 = v := by
  simp [List.getElem?_set, h]

theorem lt_length_of_getD_ne (l : List Nat) (k : Nat) (h : l.getD k 0 ≠ 0) : k < l.length := by
  by_contra hc
  exact h (by simp [List.getElem?_eq_none (Nat.le_of_not_lt hc)])

theorem window_match_lt (buffer : List Nat) (i : Nat) (h : window_match buffer i) :
    i + 3 < buffer.length := by
  apply lt_length_of_getD_ne
  intro h0
  have := h.2
  rw [h0] at this
  simp at this

theorem armthumb_store_length (buffer : List Nat) (i d : Nat) :
    (armthumb_store buffer i d).length = buffer.length := by
  simp [armthumb_store]

theorem armthumb_store_getD_out (buffer : List Nat) (i d k : Nat) (h : k < i ∨ i + 4 ≤ k) :
    (armthumb_store buffer i d).getD k 0 = buffer.getD k 0 := by
  unfold armthumb_store
  simp only []
  rw [getD_set_ne _ _ _ _ (by omega), getD_set_ne _ _ _ _ (by omega),
    getD_set_ne _ _ _ _ (by omega), getD_set_ne _ _ _ _ (by omega)]

theorem armthumb_store_set_comm (buffer : List Nat) (i d k v : Nat) (h : k < i ∨ i + 4 ≤ k) :
    armthumb_store (buffer.set k v) i d = (armthumb_store buffer i d).set k v := by
  unfold armthumb_store
  simp only []
  rw [List.set_comm _ _ _ (by omega : k ≠ i + 1)]
  rw [List.set_comm _ _ _ (by omega : k ≠ i + 0)]
  rw [List.set_comm _ _ _ (by omega : k ≠ i + 3)]
  rw [List.set_comm _ _ _ (by omega : k ≠ i + 2)]

theorem armthumb_loop_unfold (np : Nat) (e : Bool) (size fuel i : Nat) (buffer : List Nat) :
    armthumb_loop np e size (fuel + 1) i buffer =
      if i + 4 ≤ size then
        if window_match buffer i then
          armthumb_loop np e size fuel (i + 4)
            (armthumb_store buffer i (armthumb_dest np e i
              (armthumb_src (buffer.getD i 0) (buffer.getD (i + 1) 0)
                (buffer.getD (i + 2) 0) (buffer.getD (i + 3) 0))))
        else armthumb_loop np e size fuel (i + 2) buffer
      else (buffer, i) := by
  rfl

/-- Bytes below the start index are not touched by the loop. -/
theorem armthumb_loop_getD_below (np : Nat) (e : Bool) (size : Nat) :
    ∀ (fuel i : Nat) (buffer : List Nat) (k : Nat), k < i →
      (armthumb_loop np e size fuel i buffer).1.getD k 0 = buffer.getD k 0 := by
  intro fuel
  induction fuel with
  | zero => intro i buffer k _; rfl
  | succ fuel ih =>
    intro i buffer k hk
    rw [armthumb_loop_unfold]
    split
    · split
      · rw [ih _ _ _ (by omega), armthumb_store_getD_out _ _ _ _ (Or.inl hk)]
      · rw [ih _ _ _ (by omega)]
    · rfl

/-- A store below the start index commutes with the loop. -/
theorem armthumb_loop_set_below (np : Nat) (e : Bool) (size : Nat) :
    ∀ (fuel i : Nat) (buffer : List Nat) (k v : Nat), k < i →
      armthumb_loop np e size fuel i (buffer.set k v) =
        ((armthumb_loop np e size fuel i buffer).1.set k v,
          (armthumb_loop np e size fuel i buffer).2) := by
  intro fuel
  induction fuel with
  | zero => intro i buffer k v _; rfl
  | succ fuel ih =>
    intro i buffer k v hk
    rw [armthumb_loop_unfold, armthumb_loop_unfold]
    have hm : window_match (buffer.set k v) i ↔ window_match buffer i := by
      unfold window_match
      rw [getD_set_ne _ _ _ _ (by omega), getD_set_ne _ _ _ _ (by omega)]
    rw [getD_set_ne _ _ _ _ (by omega : k ≠ i), getD_set_ne _ _ _ _ (by omega : k ≠ i + 1),
      getD_set_ne _ _ _ _ (by omega : k ≠ i + 2), getD_set_ne _ _ _ _ (by omega : k ≠ i + 3)]
    simp only [hm]
    split
    · split
      · rw [armthumb_store_set_comm _ _ _ _ _ (Or.inl hk), ih _ _ _ _ (by omega)]
      · rw [ih _ _ _ _ (by omega)]
    · rfl

theorem armthumb_loop_store_below (np : Nat) (e : Bool) (size : Nat)
    (fuel i : Nat) (buffer : List Nat) (j d : Nat) (h : j + 4 ≤ i) :
    armthumb_loop np e size fuel i (armthumb_store buffer j d) =
      (armthumb_store (armthumb_loop np e size fuel i buffer).1 j d,
        (armthumb_loop np e size fuel i buffer).2) := by
  unfold armthumb_store
  simp only []
  rw [armthumb_loop_set_below _ _ _ _ _ _ _ _ (by omega),
    armthumb_loop_set_below _ _ _ _ _ _ _ _ (by omega),
    armthumb_loop_set_below _ _ _ _ _ _ _ _ (by omega),
    armthumb_loop_set_below _ _ _ _ _ _ _ _ (by omega)]

theorem armthumb_store_getD0 (buffer : List Nat) (i d : Nat) (h : i + 3 < buffer.length) :
    (armthumb_store buffer i d).getD i 0 = d / 2 ^ 11 % 256 := by
  unfold armthumb_store
  simp only [Nat.add_zero]
  rw [getD_set_ne _ _ _ _ (by omega), getD_set_ne _ _ _ _ (by omega),
    getD_set_eq _ _ _ (by simp; omega), store0_eq]

theorem armthumb_store_getD1 (buffer : List Nat) (i d : Nat) (h : i + 3 < buffer.length) :
    (armthumb_store buffer i d).getD (i + 1) 0 = 240 + d / 2 ^ 19 % 8 := by
  unfold armthumb_store
  simp only [Nat.add_zero]
  rw [getD_set_ne _ _ _ _ (by omega), getD_set_ne _ _ _ _ (by omega),
    getD_set_ne _ _ _ _ (by omega), getD_set_eq _ _ _ (by omega), store1_eq]

theorem armthumb_store_getD2 (buffer : List Nat) (i d : Nat) (h : i + 3 < buffer.length) :
    (armthumb_store buffer i d).getD (i + 2) 0 = d % 256 := by
  unfold armthumb_store
  simp only [Nat.add_zero]
  rw [getD_set_eq _ _ _ (by simp; omega)]

theorem armthumb_store_getD3 (buffer : List Nat) (i d : Nat) (h : i + 3 < buffer.length) :
    (armthumb_store buffer i d).getD (i + 3) 0 = 248 + d / 2 ^ 8 % 8 := by
  unfold armthumb_store
  simp only [Nat.add_zero]
  rw [getD_set_ne _ _ _ _ (by omega), getD_set_eq _ _ _ (by simp; omega), store3_eq]

/-- Storing into a window the bytes it already holds changes nothing, whatever
was stored there in between. -/
theorem armthumb_store_restore (buffer : List Nat) (i d d1 : Nat) (h : i + 3 < buffer.length)
    (h0 : d1 / 2 ^ 11 % 256 = buffer.getD i 0)
    (h1 : 240 + d1 / 2 ^ 19 % 8 = buffer.getD (i + 1) 0)
    (h2 : d1 % 256 = buffer.getD (i + 2) 0)
    (h3 : 248 + d1 / 2 ^ 8 % 8 = buffer.getD (i + 3) 0) :
    armthumb_store (armthumb_store buffer i d) i d1 = buffer := by
  apply List.ext_getElem?
  intro k
  unfold armthumb_store
  simp only [Nat.add_zero, store0_eq, store1_eq, store3_eq, h0, h1, h2, h3]
  simp only [List.getElem?_set, List.length_set, List.getD_eq_getElem?_getD]
  by_cases e0 : k = i
  · subst e0
    simp [h, (by omega : k < buffer.length), List.getElem?_eq_getElem]
  by_cases e1 : k = i + 1
  · subst e1
    simp [h, (by omega : i + 1 < buffer.length), List.getElem?_eq_getElem]
  by_cases e2 : k = i + 2
  · subst e2
    simp [h, (by omega : i + 2 < buffer.length), List.getElem?_eq_getElem]
  by_cases e3 : k = i + 3
  · subst e3
    simp [h, List.getElem?_eq_getElem]
  · simp [Ne.symm e0, Ne.symm e1, Ne.symm e2, Ne.symm e3]

/-! ## The filter loop: involution -/

theorem top5_240 : ∀ x, x < 8 → ((240 + x) &&& 0xF8) = 0xF0 := by decide
theorem top5_248 : ∀ x, x < 8 → ((248 + x) &&& 0xF8) = 0xF8 := by decide

/-- The loop keeps the top five bits of every byte whose index has the parity
opposite to the start index. -/
theorem armthumb_loop_top5 (np : Nat) (e : Bool) (size : Nat) :
    ∀ (fuel i : Nat) (buffer : List Nat) (k : Nat), k % 2 ≠ i % 2 →
      ((armthumb_loop np e size fuel i buffer).1.getD k 0 &&& 0xF8)
        = (buffer.getD k 0 &&& 0xF8) := by
  intro fuel
  induction fuel with
  | zero => intro i buffer k _; rfl
  | succ fuel ih =>
    intro i buffer k hk
    rw [armthumb_loop_unfold]
    split
    · split
      · rename_i hm
        have hlen := window_match_lt _ _ hm
        rw [ih _ _ _ (by omega)]
        by_cases e1 : k = i + 1
        · subst e1
          rw [armthumb_store_getD1 _ _ _ hlen, top5_240 _ (Nat.mod_lt _ (by decide)), hm.1]
        by_cases e3 : k = i + 3
        · subst e3
          rw [armthumb_store_getD3 _ _ _ hlen, top5_248 _ (Nat.mod_lt _ (by decide)), hm.2]
        · rw [armthumb_store_getD_out _ _ _ _ (by omega)]
      · rw [ih _ _ _ (by omega)]
    · rfl

/-- Running the loop in one direction and then in the other, from the same
even index at an even base position, gives back the buffer. -/
theorem armthumb_loop_involution (np : Nat) (e : Bool) (size : Nat) (hnp : np % 2 = 0) :
    ∀ (fuel i : Nat) (buffer : List Nat), i % 2 = 0 → (∀ k, buffer.getD k 0 < 256) →
      armthumb_loop np (!e) size fuel i (armthumb_loop np e size fuel i buffer).1
        = (buffer, (armthumb_loop np e size fuel i buffer).2) := by
  intro fuel
  induction fuel with
  | zero => intro i buffer _ _; rfl
  | succ fuel ih =>
    intro i buffer hi hb
    rw [armthumb_loop_unfold np e]
    by_cases hs : i + 4 ≤ size
    · rw [if_pos hs]
      by_cases hm : window_match buffer i
      · rw [if_pos hm]
        have hlen := window_match_lt _ _ hm
        generalize hd : armthumb_dest np e i
              (armthumb_src (buffer.getD i 0) (buffer.getD (i + 1) 0)
                (buffer.getD (i + 2) 0) (buffer.getD (i + 3) 0)) = d
        have hlenW : i + 3 < (armthumb_store buffer i d).length := by
          rw [armthumb_store_length]; exact hlen
        have g0 := armthumb_loop_getD_below np e size fuel (i + 4) (armthumb_store buffer i d) i (by omega)
        have g1 := armthumb_loop_getD_below np e size fuel (i + 4) (armthumb_store buffer i d) (i + 1) (by omega)
        have g2 := armthumb_loop_getD_below np e size fuel (i + 4) (armthumb_store buffer i d) (i + 2) (by omega)
        have g3 := armthumb_loop_getD_below np e size fuel (i + 4) (armthumb_store buffer i d) (i + 3) (by omega)
        rw [armthumb_store_getD0 _ _ _ hlen] at g0
        rw [armthumb_store_getD1 _ _ _ hlen] at g1
        rw [armthumb_store_getD2 _ _ _ hlen] at g2
        rw [armthumb_store_getD3 _ _ _ hlen] at g3
        have hmB : window_match (armthumb_loop np e size fuel (i + 4) (armthumb_store buffer i d)).1 i := by
          unfold window_match
          rw [g1, g3]
          exact ⟨top5_240 _ (Nat.mod_lt _ (by decide)), top5_248 _ (Nat.mod_lt _ (by decide))⟩
        rw [armthumb_loop_unfold np (!e), if_pos hs, if_pos hmB, g0, g1, g2, g3]
        generalize hd1 : armthumb_dest np (!e) i (armthumb_src (d / 2 ^ 11 % 256) (240 + d / 2 ^ 19 % 8)
          (d % 256) (248 + d / 2 ^ 8 % 8)) = d1
        have hw := window_roundtrip np i e (buffer.getD i 0) (buffer.getD (i + 1) 0)
          (buffer.getD (i + 2) 0) (buffer.getD (i + 3) 0) (hb _) (hb _)
          ((top5_F0 _ (hb _)).1 hm.1) ((top5_F8 _ (hb _)).1 hm.2) hnp hi d d1 hd.symm hd1.symm
        have hsb := armthumb_loop_store_below np e size fuel (i + 4) (armthumb_store buffer i d) i d1 (by omega)
        rw [armthumb_store_restore buffer i d d1 hlen hw.1 hw.2.1 hw.2.2.1 hw.2.2.2] at hsb
        have hsb2 := armthumb_loop_store_below np e size fuel (i + 4) buffer i d (by omega)
        have e1 : armthumb_store (armthumb_loop np e size fuel (i + 4) (armthumb_store buffer i d)).1 i d1
            = (armthumb_loop np e size fuel (i + 4) buffer).1 := by
          rw [hsb]
        rw [e1, ih (i + 4) buffer (by omega) hb, hsb2]
      · rw [if_neg hm]
        have hmB : ¬ window_match (armthumb_loop np e size fuel (i + 2) buffer).1 i := by
          unfold window_match
          rw [armthumb_loop_getD_below np e size fuel (i + 2) buffer (i + 1) (by omega),
            armthumb_loop_top5 np e size fuel (i + 2) buffer (i + 3) (by omega)]
          exact hm
        rw [armthumb_loop_unfold np (!e), if_pos hs, if_neg hmB]
        exact ih (i + 2) buffer (by omega) hb
    · rw [if_neg hs, armthumb_loop_unfold np (!e), if_neg hs]

theorem getD_lt_of_bytes (buffer : List Nat) (hb : ∀ b ∈ buffer, b < 256) (k : Nat) :
    buffer.getD k 0 < 256 := by
  by_cases hk : k < buffer.length
  · rw [List.getD_eq_getElem _ _ hk]
    exact hb _ (List.getElem_mem hk)
  · simp [List.getElem?_eq_none (Nat.le_of_not_lt hk)]

/-- Filter involution for `armthumb_code` at an even base position. -/
theorem armthumb_code_involution (np : Nat) (e : Bool) (buffer : List Nat) (size : Nat)
    (hnp : np % 2 = 0) (hb : ∀ b ∈ buffer, b < 256) :
    (armthumb_code np (!e) (armthumb_code np e buffer size).1 size).1 = buffer := by
  unfold armthumb_code
  rw [armthumb_loop_involution np e size hnp size 0 buffer rfl (getD_lt_of_bytes buffer hb)]

theorem armthumb_loop_length (np : Nat) (e : Bool) (size : Nat) :
    ∀ (fuel i : Nat) (buffer : List Nat),
      (armthumb_loop np e size fuel i buffer).1.length = buffer.length := by
  intro fuel
  induction fuel with
  | zero => intro i buffer; rfl
  | succ fuel ih =>
    intro i buffer
    rw [armthumb_loop_unfold]
    split
    · split
      · rw [ih, armthumb_store_length]
      · rw [ih]
    · rfl

theorem armthumb_store_append (buffer tail : List Nat) (i d : Nat) (h : i + 3 < buffer.length) :
    armthumb_store (buffer ++ tail) i d = armthumb_store buffer i d ++ tail := by
  unfold armthumb_store
  simp only [Nat.add_zero]
  rw [List.set_append_left _ _ (by omega), List.set_append_left _ _ (by simp; omega),
    List.set_append_left _ _ (by simp; omega), List.set_append_left _ _ (by simp; omega)]

/-- Bytes behind the first `size` bytes take no part in the loop. -/
theorem armthumb_loop_append (np : Nat) (e : Bool) (size : Nat) (tail : List Nat) :
    ∀ (fuel i : Nat) (buffer : List Nat), size ≤ buffer.length →
      armthumb_loop np e size fuel i (buffer ++ tail) =
        ((armthumb_loop np e size fuel i buffer).1 ++ tail,
          (armthumb_loop np e size fuel i buffer).2) := by
  intro fuel
  induction fuel with
  | zero => intro i buffer _; rfl
  | succ fuel ih =>
    intro i buffer hlen
    rw [armthumb_loop_unfold, armthumb_loop_unfold]
    by_cases hs : i + 4 ≤ size
    · rw [if_pos hs, if_pos hs]
      have hm : window_match (buffer ++ tail) i ↔ window_match buffer i := by
        unfold window_match
        rw [List.getD_append _ _ _ _ (by omega), List.getD_append _ _ _ _ (by omega)]
      rw [List.getD_append _ _ _ _ (by omega : i < buffer.length),
        List.getD_append _ _ _ _ (by omega : i + 1 < buffer.length),
        List.getD_append _ _ _ _ (by omega : i + 2 < buffer.length),
        List.getD_append _ _ _ _ (by omega : i + 3 < buffer.length)]
      simp only [hm]
      split
      · rw [armthumb_store_append _ _ _ _ (by omega), ih _ _ (by rw [armthumb_store_length]; exact hlen)]
      · rw [ih _ _ hlen]
    · rw [if_neg hs, if_neg hs]

theorem armthumb_code_append (np : Nat) (e : Bool) (buffer tail : List Nat) (size : Nat)
    (h : size ≤ buffer.length) :
    (armthumb_code np e (buffer ++ tail) size).1 = (armthumb_code np e buffer size).1 ++ tail := by
  unfold armthumb_code
  rw [armthumb_loop_append np e size tail size 0 buffer h]

theorem armthumb_code_length (np : Nat) (e : Bool) (buffer : List Nat) (size : Nat) :
    (armthumb_code np e buffer size).1.length = buffer.length :=
  armthumb_loop_length np e size size 0 buffer

/-- With `size` units of fuel the loop of `armthumb_code` leaves through its
exit test: the fuel never runs out. -/
theorem armthumb_loop_exit (np : Nat) (e : Bool) (size : Nat) :
    ∀ (fuel i : Nat) (buffer : List Nat), size < i + 2 * fuel + 4 →
      size < (armthumb_loop np e size fuel i buffer).2 + 4 := by
  intro fuel
  induction fuel with
  | zero => intro i buffer h; simpa [armthumb_loop] using h
  | succ fuel ih =>
    intro i buffer h
    rw [armthumb_loop_unfold]
    split
    · split
      · exact ih _ _ (by omega)
      · exact ih _ _ (by omega)
    · simp only []; omega

/-- More fuel than the loop needs does not change its result. -/
theorem armthumb_loop_fuel (np : Nat) (e : Bool) (size : Nat) :
    ∀ (fuel extra i : Nat) (buffer : List Nat), size < i + 2 * fuel + 4 →
      armthumb_loop np e size (fuel + extra) i buffer = armthumb_loop np e size fuel i buffer := by
  intro fuel
  induction fuel with
  | zero =>
    intro extra i buffer h
    cases extra with
    | zero => rfl
    | succ n => rw [Nat.zero_add, armthumb_loop_unfold, if_neg (by omega)]; rfl
  | succ fuel ih =>
    intro extra i buffer h
    rw [Nat.add_right_comm, armthumb_loop_unfold, armthumb_loop_unfold]
    split
    · split
      · exact ih _ _ _ (by omega)
      · exact ih _ _ _ (by omega)
    · rfl

/-! ## `find_file` -/

theorem strcmp_eq_zero : ∀ (a b : List Char), strcmp a b = 0 ↔ a = b
  | [], [] => by simp [strcmp]
  | [], _ :: _ => by simp [strcmp]
  | _ :: _, [] => by simp [strcmp]
  | x :: a, y :: b => by
    unfold strcmp
    by_cases h : x = y
    · simp [h, strcmp_eq_zero a b]
    · simp only [if_neg h]
      split <;> simp [h]

/-- In a table of at most 65535 entries the loop of `find_file` started at
index `i` returns the first entry at or after `i` whose filename is `name`. -/
theorem find_file_loop_eq (files : List embedded_file) (name : List Char) (size crc : Nat)
    (hn : files.length ≤ 65535) :
    ∀ (fuel i : Nat), i ≤ files.length → files.length - i < fuel →
      find_file_loop files name size crc fuel i =
        some (find_file_answer size crc
          ((files.drop i).find? (fun e => decide (e.filename = name)))) := by
  intro fuel
  induction fuel with
  | zero => intro i _ h; omega
  | succ fuel ih =>
    intro i hi hf
    unfold find_file_loop
    by_cases h : i < files.length
    · rw [dif_pos h, List.drop_eq_getElem_cons h]
      by_cases hc : strcmp name files[i].filename = 0
      · rw [if_pos hc]
        have : files[i].filename = name := ((strcmp_eq_zero _ _).1 hc).symm
        rw [List.find?_cons_of_pos _ (by simpa using this)]
        rfl
      · rw [if_neg hc]
        have : ¬ files[i].filename = name := fun h => hc ((strcmp_eq_zero _ _).2 h.symm)
        rw [List.find?_cons_of_neg _ (by simpa using this)]
        have e : (i + 1) % 2 ^ 16 = i + 1 := Nat.mod_eq_of_lt (by omega)
        rw [e]
        exact ih (i + 1) (by omega) (by omega)
    · rw [dif_neg h, List.drop_eq_nil_of_le (by omega)]
      rfl

theorem find_file_eq (files : List embedded_file) (name : List Char) (size crc fuel : Nat)
    (hn : files.length ≤ 65535) (hf : files.length < fuel) :
    find_file files name fuel size crc =
      some (find_file_answer size crc (files.find? (fun e => decide (e.filename = name)))) := by
  unfold find_file
  rw [find_file_loop_eq files name size crc hn fuel 0 (by omega) (by omega)]
  rfl

theorem find?_first (pre post : List embedded_file) (e : embedded_file) (name : List Char)
    (hpre : ∀ f ∈ pre, f.filename ≠ name) (he : e.filename = name) :
    (pre ++ e :: post).find? (fun e => decide (e.filename = name)) = some e := by
  rw [List.find?_append]
  have : pre.find? (fun e => decide (e.filename = name)) = none := by
    rw [List.find?_eq_none]
    intro x hx
    simpa using hpre x hx
  rw [this, List.find?_cons_of_pos _ (by simpa using he)]
  rfl

theorem find?_absent (files : List embedded_file) (name : List Char)
    (h : ∀ f ∈ files, f.filename ≠ name) :
    files.find? (fun e => decide (e.filename = name)) = none := by
  rw [List.find?_eq_none]
  intro x hx
  simpa using h x hx

/-! ## `dir_list` -/

theorem strncmp_eq_zero : ∀ (d f : List Char), strncmp d f (strlen d) = 0 ↔ d <+: f
  | [], f => by simp [strncmp, strlen]
  | _ :: _, [] => by simp [strncmp, strlen]
  | a :: d, b :: f => by
    have ih := strncmp_eq_zero d f
    unfold strlen at ih ⊢
    rw [List.length_cons, strncmp, List.cons_prefix_cons]
    by_cases h : a = b
    · simp [h, ih]
    · simp only [if_neg h]
      split <;> simp [h]

theorem char_at_append (d t : List Char) : char_at (d ++ t) (strlen d) = char_at t 0 := by
  unfold char_at strlen
  rw [List.getD_append_right _ _ _ _ (Nat.le_refl _), Nat.sub_self]

theorem dir_list_test_iff (d f : List Char) :
    (strncmp d f (strlen d) = 0 && char_at f (strlen d) = '/') = true ↔ in_dir d f := by
  simp only [Bool.and_eq_true, decide_eq_true_eq, strncmp_eq_zero]
  constructor
  · rintro ⟨⟨t, rfl⟩, hc⟩
    rw [char_at_append] at hc
    cases t with
    | nil => exact absurd hc (by decide)
    | cons c t =>
      have : c = '/' := hc
      exact ⟨t, by rw [this]; simp⟩
  · rintro ⟨s, rfl⟩
    refine ⟨⟨'/' :: s, by simp⟩, ?_⟩
    have e : d ++ ['/'] ++ s = d ++ '/' :: s := by simp
    rw [e, char_at_append]
    rfl

theorem dir_list_eq_scan (files : List embedded_file) (dirname : List Char)
    (hn : files.length ≤ 65535) :
    ∀ (fuel ofs : Nat), ofs ≤ files.length → files.length - ofs < fuel →
      dir_list files dirname fuel ofs = some (dir_scan dirname ofs (files.drop ofs)) := by
  intro fuel
  induction fuel with
  | zero => intro ofs _ h; omega
  | succ fuel ih =>
    intro ofs ho hf
    unfold dir_list
    by_cases h : ofs < files.length
    · rw [dif_pos h, List.drop_eq_getElem_cons h]
      unfold dir_scan
      by_cases hm : in_dir dirname files[ofs].filename
      · rw [if_pos ((dir_list_test_iff _ _).2 hm), if_pos hm]
        rw [Nat.mod_eq_of_lt (by omega : ofs + 1 < 2 ^ 16)]
      · rw [if_neg (fun hc => hm ((dir_list_test_iff _ _).1 hc)), if_neg hm]
        rw [Nat.mod_eq_of_lt (by omega : ofs + 1 < 2 ^ 16)]
        exact ih (ofs + 1) (by omega) (by omega)
    · rw [dif_neg h, List.drop_eq_nil_of_le (by omega)]
      rfl

theorem dir_scan_found (d : List Char) :
    ∀ (rest : List embedded_file) (ofs j : Nat) (e : embedded_file),
      rest[j]? = some e → in_dir d e.filename →
      (∀ k f, k < j → rest[k]? = some f → ¬ in_dir d f.filename) →
      dir_scan d ofs rest = ⟨some e.filename, ofs + j + 1⟩ := by
  intro rest
  induction rest with
  | nil => intro ofs j e h; simp at h
  | cons x rest ih =>
    intro ofs j e hj he hbefore
    unfold dir_scan
    cases j with
    | zero =>
      simp at hj
      subst hj
      rw [if_pos he]
    | succ j =>
      have hx : ¬ in_dir d x.filename := hbefore 0 x (by omega) (by simp)
      rw [if_neg hx, ih (ofs + 1) j e (by simpa using hj) he
        (fun k f hk hf => hbefore (k + 1) f (by omega) (by simpa using hf))]
      simp only [dir_list_result.mk.injEq, true_and]
      omega

theorem dir_scan_none (d : List Char) :
    ∀ (rest : List embedded_file) (ofs : Nat),
      (∀ f ∈ rest, ¬ in_dir d f.filename) →
      dir_scan d ofs rest = ⟨none, ofs + rest.length⟩ := by
  intro rest
  induction rest with
  | nil => intro ofs _; rfl
  | cons x rest ih =>
    intro ofs h
    unfold dir_scan
    rw [if_neg (h x (by simp)), ih (ofs + 1) (fun f hf => h f (by simp [hf]))]
    simp only [List.length_cons, dir_list_result.mk.injEq, true_and]
    omega

/-- Either the scan finds nothing, or it stops at the first matching entry. -/
theorem dir_scan_cases (d : List Char) (rest : List embedded_file) (ofs : Nat) :
    ((∀ f ∈ rest, ¬ in_dir d f.filename) ∧ dir_scan d ofs rest = ⟨none, ofs + rest.length⟩)
    ∨ ∃ pre e post, rest = pre ++ e :: post ∧ (∀ f ∈ pre, ¬ in_dir d f.filename)
        ∧ in_dir d e.filename
        ∧ dir_scan d ofs rest = ⟨some e.filename, ofs + pre.length + 1⟩ := by
  induction rest generalizing ofs with
  | nil => exact Or.inl ⟨by simp, rfl⟩
  | cons x rest ih =>
    by_cases hx : in_dir d x.filename
    · refine Or.inr ⟨[], x, rest, rfl, by simp, hx, ?_⟩
      unfold dir_scan
      rw [if_pos hx]; rfl
    · rcases ih (ofs + 1) with ⟨hall, hs⟩ | ⟨pre, e, post, rfl, hpre, he, hs⟩
      · refine Or.inl ⟨?_, ?_⟩
        · intro f hf
          rcases List.mem_cons.1 hf with rfl | hf
          · exact hx
          · exact hall f hf
        · unfold dir_scan
          rw [if_neg hx, hs]
          simp only [List.length_cons, dir_list_result.mk.injEq, true_and]
          omega
      · refine Or.inr ⟨x :: pre, e, post, rfl, ?_, he, ?_⟩
        · intro f hf
          rcases List.mem_cons.1 hf with rfl | hf
          · exact hx
          · exact hpre f hf
        · unfold dir_scan
          rw [if_neg hx, hs]
          simp only [List.length_cons, dir_list_result.mk.injEq, true_and]
          omega

theorem filter_in_dir_none (d : List Char) (rest : List embedded_file)
    (h : ∀ f ∈ rest, ¬ in_dir d f.filename) :
    (rest.map (fun e => e.filename)).filter (fun p => decide (in_dir d p)) = [] := by
  rw [List.filter_eq_nil_iff]
  intro p hp
  rcases List.mem_map.1 hp with ⟨f, hf, rfl⟩
  simpa using h f hf

/-- The enumeration from cursor `ofs` yields the matching paths among the
entries from `ofs` on, in table order. -/
theorem dir_list_all_eq (files : List embedded_file) (dirname : List Char) (fuel : Nat)
    (hn : files.length ≤ 65535) (hf : files.length < fuel) :
    ∀ (calls ofs : Nat), ofs ≤ files.length → files.length - ofs < calls →
      dir_list_all files dirname fuel calls ofs =
        some (((files.drop ofs).map (fun e => e.filename)).filter
          (fun p => decide (in_dir dirname p))) := by
  intro calls
  induction calls with
  | zero => intro ofs _ h; omega
  | succ calls ih =>
    intro ofs ho hc
    unfold dir_list_all
    rw [dir_list_eq_scan files dirname hn fuel ofs ho (by omega)]
    rcases dir_scan_cases dirname (files.drop ofs) ofs with ⟨hall, hs⟩ | ⟨pre, e, post, hd, hpre, he, hs⟩
    · rw [hs, filter_in_dir_none dirname _ hall]
    · rw [hs]
      simp only []
      have hlen : (files.drop ofs).length = pre.length + post.length + 1 := by
        rw [hd, List.length_append, List.length_cons]; omega
      rw [List.length_drop] at hlen
      have hpost : files.drop (ofs + pre.length + 1) = post := by
        have : files.drop (ofs + pre.length + 1) = (files.drop ofs).drop (pre.length + 1) := by
          rw [List.drop_drop, Nat.add_assoc]
        rw [this, hd]
        simp
      rw [ih (ofs + pre.length + 1) (by omega) (by omega), hpost, hd]
      simp only [List.map_append, List.map_cons, List.filter_append, Option.map_some']
      rw [filter_in_dir_none dirname pre hpre, List.filter_cons_of_pos (by simpa using he)]
      rfl

/-! ## The trailer and the output buffer -/

theorem low_or_eq_add (i a b : Nat) (hb : b < 2 ^ i) : b ||| a <<< i = b + a * 2 ^ i := by
  rw [Nat.lor_comm, Nat.shiftLeft_eq, or_eq_add i a b hb, Nat.add_comm]

/-- The trailer expression on four bytes is their little-endian value. -/
theorem trailer_bytes (p0 p1 p2 p3 : Nat) (h0 : p0 < 256) (h1 : p1 < 256) (h2 : p2 < 256)
    (h3 : p3 < 256) :
    (p0 ||| (p1 <<< 8) ||| (p2 <<< 16) ||| (p3 <<< 24)) % 2 ^ 32
      = p0 + 2 ^ 8 * p1 + 2 ^ 16 * p2 + 2 ^ 24 * p3 := by
  rw [low_or_eq_add 8 p1 p0 (by omega), low_or_eq_add 16 p2 _ (by omega),
    low_or_eq_add 24 p3 _ (by omega)]
  omega

theorem trailer_eq (data : List Nat) (size : Nat) (hs : 4 ≤ size) (h32 : size < 2 ^ 32)
    (hb : ∀ b ∈ data, b < 256) :
    trailer data size = data.getD (size - 4) 0 + 2 ^ 8 * data.getD (size - 3) 0
      + 2 ^ 16 * data.getD (size - 2) 0 + 2 ^ 24 * data.getD (size - 1) 0 := by
  unfold trailer
  have e : (size + 2 ^ 32 - 4) % 2 ^ 32 = size - 4 := by omega
  simp only [e]
  rw [trailer_bytes _ _ _ _ (getD_lt_of_bytes _ hb _) (getD_lt_of_bytes _ hb _)
    (getD_lt_of_bytes _ hb _) (getD_lt_of_bytes _ hb _)]
  rw [Nat.add_zero, (by omega : size - 4 + 1 = size - 3), (by omega : size - 4 + 2 = size - 2),
    (by omega : size - 4 + 3 = size - 1)]

theorem trailer_le32 (S : List Nat) (n : Nat) (hn : n < 2 ^ 32) (hS : S.length + 4 < 2 ^ 32) :
    trailer (S ++ le32 n) (S.length + 4) = n := by
  unfold trailer
  have e : (S.length + 4 + 2 ^ 32 - 4) % 2 ^ 32 = S.length := by omega
  simp only [e]
  rw [List.getD_append_right _ _ _ _ (by omega), List.getD_append_right _ _ _ _ (by omega),
    List.getD_append_right _ _ _ _ (by omega), List.getD_append_right _ _ _ _ (by omega)]
  simp only [Nat.add_zero, Nat.sub_self, Nat.add_sub_cancel_left, le32, List.getD_cons_zero,
    List.getD_cons_succ]
  rw [trailer_bytes _ _ _ _ (Nat.mod_lt _ (by decide)) (Nat.mod_lt _ (by decide))
    (Nat.mod_lt _ (by decide)) (Nat.mod_lt _ (by decide))]
  omega

theorem inflater_source_le32 (S : List Nat) (n : Nat) :
    inflater_source (S ++ le32 n) (S.length + 4) = S := by
  simp [inflater_source]

theorem set_last_drop : ∀ (n : Nat) (l : List Nat), l.length = n + 1 → (l.set n 0).drop n = [0]
  | 0, [x], _ => rfl
  | 0, [], h => by simp at h
  | 0, _ :: _ :: _, h => by simp at h
  | n + 1, [], h => by simp at h
  | n + 1, x :: l, h => by
    rw [List.set_cons_succ, List.drop_succ_cons]
    exact set_last_drop n l (by simpa using h)

theorem fresh_buffer_length (k : Nat) (g : Nat → Nat) : (fresh_buffer k g).length = k := by
  simp [fresh_buffer]

theorem output_buffer_length (n : Nat) (g : Nat → Nat) :
    (output_buffer n g).length = n + 1 := by
  simp [output_buffer, fresh_buffer_length]

theorem malloc_request_eq (n : Nat) (h : n + 1 < 2 ^ 32) : malloc_request n = n + 1 :=
  Nat.mod_eq_of_lt h

theorem output_buffer_drop (n : Nat) (g : Nat → Nat) :
    (output_buffer n g).drop n = [0] := by
  unfold output_buffer
  exact set_last_drop n _ (fresh_buffer_length _ _)

/-- An inflater output of exactly `n` bytes, stored into the output buffer,
leaves those bytes followed by the sentinel. -/
theorem store_output_full (out : List Nat) (g : Nat → Nat) :
    store_output (out.take out.length) (output_buffer out.length g) = out ++ [0] := by
  unfold store_output
  rw [List.take_length, output_buffer_length,
    List.take_of_length_le (by omega), output_buffer_drop _ _]

theorem armthumb_loop_zero_size (np : Nat) (e : Bool) (fuel : Nat) (buffer : List Nat) :
    armthumb_loop np e 0 fuel 0 buffer = (buffer, 0) := by
  cases fuel with
  | zero => rfl
  | succ f => rw [armthumb_loop_unfold, if_neg (by omega)]

/-! ## `find_decompress` -/

/-- With a table of at most 65535 entries and enough fuel, `find_decompress`
is its branch taken on the first entry named `name`. -/
theorem find_decompress_eq (h : Host) (u : Bool) (files : List embedded_file)
    (name : List Char) (fuel size0 : Nat) (hn : files.length ≤ 65535)
    (hf : files.length < fuel) :
    find_decompress h u files name fuel size0 =
      some (match first_entry files name with
        | none => ⟨none, size0, none, none⟩
        | some e =>
          if u then ⟨some e.contents, e.size, none, none⟩
          else decompress_entry h e.contents e.size e.crc size0) := by
  unfold find_decompress first_entry
  rw [find_file_eq files name 0 h.crc_uninit fuel hn hf]
  cases files.find? (fun e => decide (e.filename = name)) with
  | none => rfl
  | some e =>
    simp only [find_file_answer]
    cases u <;> rfl

theorem first_entry_found (pre post : List embedded_file) (e : embedded_file)
    (hpre : ∀ f ∈ pre, f.filename ≠ e.filename) :
    first_entry (pre ++ e :: post) e.filename = some e :=
  find?_first pre post e e.filename hpre rfl

/-- The compressed branch when every check passes. -/
theorem decompress_entry_ok (h : Host) (data : List Nat) (size crc size0 : Nat)
    (garbage : Nat → Nat)
    (halloc : h.malloc_data (malloc_request (trailer data size)) = some garbage)
    (htinf : h.malloc_tinf = true)
    (hres : (h.uzlib_uncompress (inflater_source data size) (trailer data size)).1 = h.TINF_OK)
    (hcrc : h.crc32_small 0 ((filtered_buffer h data size garbage).take (trailer data size))
      = crc) :
    decompress_entry h data size crc size0 =
      ⟨some (filtered_buffer h data size garbage), trailer data size,
        some (malloc_request (trailer data size)),
        some (inflater_source data size, trailer data size)⟩ := by
  unfold decompress_entry
  simp only [halloc, htinf, hres, hcrc]
  simp

/-- The compressed branch either passes all four checks and returns the
filtered buffer, or returns `nullptr` with `size` untouched. -/
theorem decompress_entry_cases (h : Host) (data : List Nat) (size crc size0 : Nat) :
    (∃ garbage, checks_pass h data size crc garbage
        ∧ decompress_entry h data size crc size0 =
          ⟨some (filtered_buffer h data size garbage), trailer data size,
            some (malloc_request (trailer data size)),
            some (inflater_source data size, trailer data size)⟩)
    ∨ ((decompress_entry h data size crc size0).ret = none
        ∧ (decompress_entry h data size crc size0).size = size0
        ∧ ¬ ∃ garbage, checks_pass h data size crc garbage) := by
  unfold checks_pass
  cases hm : h.malloc_data (malloc_request (trailer data size)) with
  | none =>
    right
    unfold decompress_entry
    simp [hm]
  | some garbage =>
    by_cases ht : h.malloc_tinf = true
    · by_cases hr : (h.uzlib_uncompress (inflater_source data size) (trailer data size)).1
          = h.TINF_OK
      · by_cases hc : h.crc32_small 0
            ((filtered_buffer h data size garbage).take (trailer data size)) = crc
        · left
          exact ⟨garbage, ⟨rfl, ht, hr, hc⟩, decompress_entry_ok h data size crc size0 garbage hm ht hr hc⟩
        · right
          unfold decompress_entry
          simp [hm, ht, hr, hc]
      · right
        unfold decompress_entry
        simp [hm, ht, hr]
    · right
      unfold decompress_entry
      simp [hm, ht]

/-! ## Properties of `find_decompress` -/

/-- The inflater is run only after both allocations have succeeded. -/
theorem decompress_entry_uzlib_args (h : Host) (data : List Nat) (size crc size0 : Nat)
    (args : List Nat × Nat)
    (hargs : (decompress_entry h data size crc size0).uzlib_args = some args) :
    (∃ garbage, h.malloc_data (malloc_request (trailer data size)) = some garbage)
      ∧ h.malloc_tinf = true := by
  unfold decompress_entry at hargs
  cases hm : h.malloc_data (malloc_request (trailer data size)) with
  | none => simp [hm] at hargs
  | some g =>
    refine ⟨⟨g, rfl⟩, ?_⟩
    by_contra ht
    simp [hm, ht] at hargs

/-- C1. Round trip in compressed-storage mode: let the plaintext `P` have
`n < 2 ^ 32 - 1` bytes, let the entry `e` (the first entry with its filename,
in a table of at most 65535 entries) hold `S` followed by the little-endian
encoding of `n`, let both allocations succeed, so that the inflater is run,
let the inflater on `S` with output limit `n` report `TINF_OK` and produce
`armthumb_code` in the encode direction at base position 0 applied to `P`,
and let the stored crc be the CRC32 of `P`.  Then `find_decompress` succeeds,
reports size `n`, and returns a buffer of `n + 1` bytes: `P` followed by one
zero byte. -/
theorem find_decompress_round_trip (h : Host) (pre post : List embedded_file)
    (e : embedded_file) (S P : List Nat) (garbage : Nat → Nat) (fuel size0 : Nat)
    (hn : (pre ++ e :: post).length ≤ 65535) (hfuel : (pre ++ e :: post).length < fuel)
    (hpre : ∀ f ∈ pre, f.filename ≠ e.filename)
    (hP : ∀ b ∈ P, b < 256) (hlen : P.length < 2 ^ 32 - 1)
    (hdata : e.contents = S ++ le32 P.length) (hsize : e.size = e.contents.length)
    (h32 : e.size < 2 ^ 32)
    (halloc : h.malloc_data (P.length + 1) = some garbage) (htinf : h.malloc_tinf = true)
    (hinfl : h.uzlib_uncompress S P.length = (h.TINF_OK, (armthumb_code 0 true P P.length).1))
    (hcrc : e.crc = h.crc32_small 0 P) :
    find_decompress h false (pre ++ e :: post) e.filename fuel size0 =
        some ⟨some (P ++ [0]), P.length, some (P.length + 1), some (S, P.length)⟩
      ∧ (P ++ [0]).length = P.length + 1 := by
  refine ⟨?_, by simp⟩
  rw [find_decompress_eq h false _ _ fuel size0 hn hfuel, first_entry_found pre post e hpre]
  have hsz : e.size = S.length + 4 := by rw [hsize, hdata]; simp [le32]
  have htr : trailer e.contents e.size = P.length := by
    rw [hsz, hdata]
    exact trailer_le32 S P.length (by omega) (by omega)
  have hsrc : inflater_source e.contents e.size = S := by
    rw [hsz, hdata]
    exact inflater_source_le32 S P.length
  have hreq : malloc_request P.length = P.length + 1 := malloc_request_eq _ (by omega)
  have hencl : (armthumb_code 0 true P P.length).1.length = P.length :=
    armthumb_code_length 0 true P P.length
  have hbuf : filtered_buffer h e.contents e.size garbage = P ++ [0] := by
    simp only [filtered_buffer, inflated_buffer, htr, hsrc, hinfl]
    have hs := store_output_full (armthumb_code 0 true P P.length).1 garbage
    rw [hencl] at hs
    rw [hs, armthumb_code_append 0 false _ [0] P.length (by rw [hencl])]
    have := armthumb_code_involution 0 true P P.length rfl hP
    simp only [Bool.not_true] at this
    rw [this]
  have := decompress_entry_ok h e.contents e.size e.crc size0 garbage
    (by rw [htr, hreq]; exact halloc) htinf (by rw [htr, hsrc, hinfl])
    (by rw [hbuf, htr, hcrc]; simp)
  simp only [if_false, Bool.false_eq_true]
  rw [this, hbuf, htr, hsrc, hreq]

theorem find_decompress_round_trip_witness :
    find_decompress sample_host false sample_files ['f', 'w', '/', 'a'] 4 77 =
        some ⟨some [0, 0xF0, 4, 0xF8, 1, 0], 5, some 6, some ([0, 0xF0, 6, 0xF8, 1], 5)⟩
      ∧ ([0, 0xF0, 4, 0xF8, 1] ++ [0]).length = 5 + 1 :=
  find_decompress_round_trip sample_host [⟨['f', 'w'], 4, 0, [0, 0, 0, 0]⟩] [sample_empty]
    sample_entry [0, 0xF0, 6, 0xF8, 1] sample_plain (fun _ => 0xAA) 4 77
    (by decide) (by decide) (by decide) (by decide) (by decide) (by decide) (by decide)
    (by decide) rfl rfl (by decide) (by decide)

/-- C4. All-or-nothing decompression in compressed-storage mode: for every
name (table of at most 65535 entries) `find_decompress` returns a buffer if and
only if the name is found, both allocations succeed, the inflater reports
`TINF_OK` and the CRC32 of the first `decompressed_size` bytes of the
decode-filtered output equals the stored crc; in every other case it returns
`nullptr` and leaves the caller's `size` as it was. -/
theorem find_decompress_all_or_nothing (h : Host) (files : List embedded_file)
    (name : List Char) (fuel size0 : Nat) (hn : files.length ≤ 65535)
    (hfuel : files.length < fuel) :
    ∃ res, find_decompress h false files name fuel size0 = some res
      ∧ (res.ret ≠ none ↔
          ∃ e garbage, first_entry files name = some e
            ∧ checks_pass h e.contents e.size e.crc garbage)
      ∧ (res.ret = none → res.size = size0) := by
  rw [find_decompress_eq h false files name fuel size0 hn hfuel]
  refine ⟨_, rfl, ?_⟩
  cases first_entry files name with
  | none => simp
  | some e =>
    simp only [Bool.false_eq_true, if_false]
    rcases decompress_entry_cases h e.contents e.size e.crc size0 with
      ⟨g, hp, hd⟩ | ⟨hr, hs, hnp⟩
    · rw [hd]
      exact ⟨⟨fun _ => ⟨e, g, rfl, hp⟩, fun _ => by simp⟩, fun hc => by simp at hc⟩
    · refine ⟨⟨fun hc => absurd hr hc, ?_⟩, fun _ => hs⟩
      rintro ⟨e', g, he, hp⟩
      obtain rfl : e = e' := by simpa using he
      exact absurd ⟨g, hp⟩ hnp

theorem find_decompress_all_or_nothing_witness :
    (∃ res, find_decompress sample_host false sample_files ['f', 'w', '/', 'a'] 4 77 = some res
      ∧ (res.ret ≠ none ↔
          ∃ e garbage, first_entry sample_files ['f', 'w', '/', 'a'] = some e
            ∧ checks_pass sample_host e.contents e.size e.crc garbage)
      ∧ (res.ret = none → res.size = 77))
    ∧ find_decompress sample_host_no_tinf false sample_files ['f', 'w', '/', 'a'] 4 77
        = some ⟨none, 77, some 6, none⟩ :=
  ⟨find_decompress_all_or_nothing sample_host sample_files ['f', 'w', '/', 'a'] 4 77
    (by decide) (by decide), by decide⟩

theorem xor_pow_ne (c k : Nat) : c ^^^ 2 ^ k ≠ c := by
  intro hc
  have h1 : c ^^^ (c ^^^ 2 ^ k) = 2 ^ k := Nat.xor_cancel_left c (2 ^ k)
  rw [hc, Nat.xor_self] at h1
  exact absurd h1.symm (Nat.pos_iff_ne_zero.1 (Nat.two_pow_pos k))

/-- C5. CRC bit-flip detection in compressed-storage mode: if
`find_decompress` succeeds on an entry with stored crc `c`, then for every bit
position `k` (0 to 31 for a 32-bit crc) the call on the same entry with stored crc `c XOR 2 ^ k` and
the same blob returns `nullptr`; and the data of the successful call has
CRC32 equal to the stored crc. -/
theorem find_decompress_crc_bit_flip (h : Host) (pre post : List embedded_file)
    (e : embedded_file) (k fuel size0 : Nat) (res : find_decompress_result) (buf : List Nat)
    (hn : (pre ++ e :: post).length ≤ 65535) (hfuel : (pre ++ e :: post).length < fuel)
    (hpre : ∀ f ∈ pre, f.filename ≠ e.filename)
    (hres : find_decompress h false (pre ++ e :: post) e.filename fuel size0 = some res)
    (hok : res.ret = some buf) :
    (∃ res', find_decompress h false (pre ++ with_crc e (e.crc ^^^ 2 ^ k) :: post)
          e.filename fuel size0 = some res'
        ∧ res'.ret = none ∧ res'.size = size0)
      ∧ h.crc32_small 0 (buf.take res.size) = e.crc := by
  rw [find_decompress_eq h false _ _ fuel size0 hn hfuel, first_entry_found pre post e hpre]
    at hres
  simp only [Bool.false_eq_true, if_false, Option.some.injEq] at hres
  have hn' : (pre ++ with_crc e (e.crc ^^^ 2 ^ k) :: post).length ≤ 65535 := by
    simpa using hn
  have hfuel' : (pre ++ with_crc e (e.crc ^^^ 2 ^ k) :: post).length < fuel := by
    simpa using hfuel
  have hfirst := first_entry_found pre post (with_crc e (e.crc ^^^ 2 ^ k)) hpre
  have hname : (with_crc e (e.crc ^^^ 2 ^ k)).filename = e.filename := rfl
  rw [hname] at hfirst
  rw [find_decompress_eq h false _ _ fuel size0 hn' hfuel', hfirst]
  simp only [Bool.false_eq_true, if_false]
  rcases decompress_entry_cases h e.contents e.size e.crc size0 with
    ⟨g, hp, hd⟩ | ⟨hr, _, _⟩
  · rw [hd] at hres
    subst hres
    obtain rfl : filtered_buffer h e.contents e.size g = buf := by simpa using hok
    refine ⟨⟨_, rfl, ?_⟩, hp.2.2.2⟩
    rcases decompress_entry_cases h e.contents e.size (e.crc ^^^ 2 ^ k) size0 with
      ⟨g', hp', _⟩ | ⟨hr', hs', _⟩
    · exfalso
      obtain rfl : g = g' := by
        have := hp.1.symm.trans hp'.1
        simpa using this
      exact xor_pow_ne e.crc k (hp'.2.2.2.symm.trans hp.2.2.2)
    · exact ⟨hr', hs'⟩
  · rw [hres] at hr
    rw [hr] at hok
    exact absurd hok (by simp)

theorem find_decompress_crc_bit_flip_witness :
    (∃ res', find_decompress sample_host false
          ([⟨['f', 'w'], 4, 0, [0, 0, 0, 0]⟩] ++ with_crc sample_entry (493 ^^^ 2 ^ 31)
            :: [sample_empty])
          ['f', 'w', '/', 'a'] 4 77 = some res'
        ∧ res'.ret = none ∧ res'.size = 77)
      ∧ sample_host.crc32_small 0 (List.take 5 [0, 0xF0, 4, 0xF8, 1, 0]) = 493 :=
  find_decompress_crc_bit_flip sample_host [⟨['f', 'w'], 4, 0, [0, 0, 0, 0]⟩] [sample_empty]
    sample_entry 31 4 77
    ⟨some [0, 0xF0, 4, 0xF8, 1, 0], 5, some 6, some ([0, 0xF0, 6, 0xF8, 1], 5)⟩
    [0, 0xF0, 4, 0xF8, 1, 0]
    (by decide) (by decide) (by decide) (by decide) rfl

/-- C10. Zero-length file in compressed-storage mode: for an entry (the first
with its filename, in a table of at most 65535 entries) whose four-byte
trailer encodes 0, whose stored crc is the CRC32 of the empty byte sequence
and on which, both allocations having succeeded, the inflater reports
`TINF_OK` with output limit 0, `find_decompress` succeeds, reports size 0,
and returns a buffer of exactly one byte, which is 0. -/
theorem find_decompress_zero_length (h : Host) (pre post : List embedded_file)
    (e : embedded_file) (S : List Nat) (garbage : Nat → Nat) (fuel size0 : Nat)
    (hn : (pre ++ e :: post).length ≤ 65535) (hfuel : (pre ++ e :: post).length < fuel)
    (hpre : ∀ f ∈ pre, f.filename ≠ e.filename)
    (hdata : e.contents = S ++ le32 0) (hsize : e.size = e.contents.length)
    (h32 : e.size < 2 ^ 32)
    (halloc : h.malloc_data 1 = some garbage) (htinf : h.malloc_tinf = true)
    (hinfl : (h.uzlib_uncompress S 0).1 = h.TINF_OK)
    (hcrc : e.crc = h.crc32_small 0 []) :
    find_decompress h false (pre ++ e :: post) e.filename fuel size0 =
        some ⟨some [0], 0, some 1, some (S, 0)⟩
      ∧ ([0] : List Nat).length = 1 := by
  refine ⟨?_, rfl⟩
  rw [find_decompress_eq h false _ _ fuel size0 hn hfuel, first_entry_found pre post e hpre]
  have hsz : e.size = S.length + 4 := by rw [hsize, hdata]; simp [le32]
  have htr : trailer e.contents e.size = 0 := by
    rw [hsz, hdata]
    exact trailer_le32 S 0 (by omega) (by omega)
  have hsrc : inflater_source e.contents e.size = S := by
    rw [hsz, hdata]
    exact inflater_source_le32 S 0
  have hbuf : filtered_buffer h e.contents e.size garbage = [0] := by
    simp only [filtered_buffer, inflated_buffer, htr, hsrc]
    rfl
  have := decompress_entry_ok h e.contents e.size e.crc size0 garbage
    (by rw [htr]; exact halloc) htinf (by rw [htr, hsrc, hinfl])
    (by rw [hbuf, htr, hcrc]; rfl)
  simp only [if_false, Bool.false_eq_true]
  rw [this, hbuf, htr, hsrc]
  rfl

theorem find_decompress_zero_length_witness :
    find_decompress sample_host false sample_files ['f', 'w', '/', 'e'] 4 77 =
        some ⟨some [0], 0, some 1, some ([1, 2, 3], 0)⟩
      ∧ ([0] : List Nat).length = 1 :=
  find_decompress_zero_length sample_host [⟨['f', 'w'], 4, 0, [0, 0, 0, 0]⟩, sample_entry] []
    sample_empty [1, 2, 3] (fun _ => 0xAA) 4 77
    (by decide) (by decide) (by decide) (by decide) (by decide) (by decide) rfl rfl
    (by decide) (by decide)

theorem armthumb_store_getElem?_out (buffer : List Nat) (i d k : Nat) (h : k < i ∨ i + 4 ≤ k) :
    (armthumb_store buffer i d)[k]? = buffer[k]? := by
  unfold armthumb_store
  simp only [Nat.add_zero]
  rw [List.getElem?_set_ne (by omega), List.getElem?_set_ne (by omega),
    List.getElem?_set_ne (by omega), List.getElem?_set_ne (by omega)]

/-- Bytes at indices from `size` on are not touched by the loop. -/
theorem armthumb_loop_getElem?_above (np : Nat) (e : Bool) (size : Nat) :
    ∀ (fuel i : Nat) (buffer : List Nat) (k : Nat), size ≤ k →
      (armthumb_loop np e size fuel i buffer).1[k]? = buffer[k]? := by
  intro fuel
  induction fuel with
  | zero => intro i buffer k _; rfl
  | succ fuel ih =>
    intro i buffer k hk
    rw [armthumb_loop_unfold]
    split
    · split
      · rw [ih _ _ _ hk, armthumb_store_getElem?_out _ _ _ _ (by omega)]
      · rw [ih _ _ _ hk]
    · rfl

theorem store_output_getElem? (out dest : List Nat) (n : Nat) (h1 : out.length ≤ n)
    (h2 : n < dest.length) : (store_output out dest)[n]? = dest[n]? := by
  unfold store_output
  rw [List.take_of_length_le (by omega), List.getElem?_append_right h1, List.getElem?_drop]
  congr 1
  omega

theorem output_buffer_sentinel (n : Nat) (g : Nat → Nat) :
    (output_buffer n g)[n]? = some 0 := by
  unfold output_buffer
  rw [List.getElem?_set_eq_of_lt]
  rw [fresh_buffer_length]
  omega

/-- The sentinel survives the inflater and the filter: the inflater writes
below index `decompressed_size` and the filter stores below `size`. -/
theorem filtered_buffer_sentinel (h : Host) (data : List Nat) (size : Nat)
    (garbage : Nat → Nat) :
    (filtered_buffer h data size garbage)[trailer data size]? = some 0 := by
  unfold filtered_buffer armthumb_code
  rw [armthumb_loop_getElem?_above 0 false _ _ 0 _ _ (Nat.le_refl _)]
  unfold inflated_buffer
  simp only []
  rw [store_output_getElem? _ _ _ (by simp) (by
      rw [output_buffer_length]; omega),
    output_buffer_sentinel _ _]

theorem armthumb_loop_nil (np : Nat) (e : Bool) (size : Nat) :
    ∀ (fuel i : Nat), (armthumb_loop np e size fuel i []).1 = [] := by
  intro fuel
  induction fuel with
  | zero => intro i; rfl
  | succ fuel ih =>
    intro i
    rw [armthumb_loop_unfold]
    split
    · rw [if_neg (by simp [window_match]), ih]
    · rfl

theorem armthumb_code_nil (np : Nat) (e : Bool) (size : Nat) :
    (armthumb_code np e [] size).1 = [] :=
  armthumb_loop_nil np e size size 0

/-- C3. Shape of a successful result in compressed-storage mode: whenever
`find_decompress` returns a buffer for an entry with `compressed_size ≥ 4`
(the first entry with its filename, in a table of at most 65535 entries), the
size it reports is `p0 + 2^8*p1 + 2^16*p2 + 2^24*p3`, where `p0..p3` are the
four bytes of the blob at the indices `compressed_size - 4` to
`compressed_size - 1` (its last four bytes), the inflater was given exactly
the blob's bytes `[0, compressed_size - 4)` with output limit equal to that
size, and the byte of the returned buffer at index `size` is 0. -/
theorem find_decompress_shape (h : Host) (pre post : List embedded_file)
    (e : embedded_file) (fuel size0 : Nat) (res : find_decompress_result) (buf : List Nat)
    (hn : (pre ++ e :: post).length ≤ 65535) (hfuel : (pre ++ e :: post).length < fuel)
    (hpre : ∀ f ∈ pre, f.filename ≠ e.filename)
    (hsz : 4 ≤ e.size) (h32 : e.size < 2 ^ 32) (hb : ∀ b ∈ e.contents, b < 256)
    (hres : find_decompress h false (pre ++ e :: post) e.filename fuel size0 = some res)
    (hok : res.ret = some buf) :
    res.size = e.contents.getD (e.size - 4) 0 + 2 ^ 8 * e.contents.getD (e.size - 3) 0
        + 2 ^ 16 * e.contents.getD (e.size - 2) 0 + 2 ^ 24 * e.contents.getD (e.size - 1) 0
      ∧ res.uzlib_args = some (e.contents.take (e.size - 4), res.size)
      ∧ buf[res.size]? = some 0 := by
  rw [find_decompress_eq h false _ _ fuel size0 hn hfuel, first_entry_found pre post e hpre]
    at hres
  simp only [Bool.false_eq_true, if_false, Option.some.injEq] at hres
  rcases decompress_entry_cases h e.contents e.size e.crc size0 with
    ⟨g, _, hd⟩ | ⟨hr, _, _⟩
  · rw [hd] at hres
    subst hres
    obtain rfl : filtered_buffer h e.contents e.size g = buf := by simpa using hok
    exact ⟨trailer_eq e.contents e.size hsz h32 hb, rfl,
      filtered_buffer_sentinel h e.contents e.size g⟩
  · rw [hres] at hr
    rw [hr] at hok
    exact absurd hok (by simp)

theorem find_decompress_shape_witness :
    (find_decompress sample_host false sample_files ['f', 'w', '/', 'a'] 4 77 =
        some ⟨some [0, 0xF0, 4, 0xF8, 1, 0], 5, some 6, some ([0, 0xF0, 6, 0xF8, 1], 5)⟩)
    ∧ ((5 : Nat) = 5 + 2 ^ 8 * 0 + 2 ^ 16 * 0 + 2 ^ 24 * 0
      ∧ (some ([0, 0xF0, 6, 0xF8, 1], 5) : Option (List Nat × Nat))
          = some (List.take (9 - 4) [0, 0xF0, 6, 0xF8, 1, 5, 0, 0, 0], 5)
      ∧ [0, 0xF0, 4, 0xF8, 1, 0][5]? = some 0) :=
  ⟨by decide,
    find_decompress_shape sample_host [⟨['f', 'w'], 4, 0, [0, 0, 0, 0]⟩] [sample_empty]
      sample_entry 4 77
      ⟨some [0, 0xF0, 4, 0xF8, 1, 0], 5, some 6, some ([0, 0xF0, 6, 0xF8, 1], 5)⟩
      [0, 0xF0, 4, 0xF8, 1, 0]
      (by decide) (by decide) (by decide) (by decide) (by decide) (by decide) (by decide) rfl⟩

/-! ## Properties of `find_file` -/

theorem find?_of_first_index {α : Type} (p : α → Bool) :
    ∀ (l : List α) (j : Nat) (e : α), l[j]? = some e → p e = true →
      (∀ k f, k < j → l[k]? = some f → p f = false) → l.find? p = some e := by
  intro l
  induction l with
  | nil => intro j e h; simp at h
  | cons x l ih =>
    intro j e hj he hbefore
    cases j with
    | zero =>
      simp at hj
      subst hj
      rw [List.find?_cons_of_pos _ he]
    | succ j =>
      have hx : p x = false := hbefore 0 x (by omega) (by simp)
      rw [List.find?_cons_of_neg _ (by simp [hx])]
      exact ih j e (by simpa using hj) he
        (fun k f hk hf => hbefore (k + 1) f (by omega) (by simpa using hf))

/-- C6. Not found: in a table of at most 65535 entries (the empty table
included), for a name equal to no entry's filename, `find_file` returns
`nullptr` and leaves `size` and `crc` as they were, and `find_decompress`
returns `nullptr` and leaves `size` as it was, in the compressed and in the
passthrough build. -/
theorem find_absent_name (h : Host) (files : List embedded_file) (name : List Char)
    (fuel size0 crc0 : Nat) (hn : files.length ≤ 65535) (hfuel : files.length < fuel)
    (habs : ∀ e ∈ files, e.filename ≠ name) :
    find_file files name fuel size0 crc0 = some ⟨none, size0, crc0⟩
      ∧ ∀ uncompressed : Bool,
          find_decompress h uncompressed files name fuel size0
            = some ⟨none, size0, none, none⟩ := by
  constructor
  · rw [find_file_eq files name size0 crc0 fuel hn hfuel, find?_absent files name habs]
    rfl
  · intro u
    rw [find_decompress_eq h u files name fuel size0 hn hfuel]
    unfold first_entry
    rw [find?_absent files name habs]

theorem find_absent_name_witness :
    (find_file sample_files ['f', 'w', '/'] 4 11 22 = some ⟨none, 11, 22⟩
      ∧ ∀ uncompressed : Bool,
          find_decompress sample_host uncompressed sample_files ['f', 'w', '/'] 4 11
            = some ⟨none, 11, none, none⟩)
    ∧ (find_file [] ['f', 'w'] 1 11 22 = some ⟨none, 11, 22⟩) :=
  ⟨find_absent_name sample_host sample_files ['f', 'w', '/'] 4 11 22 (by decide) (by decide)
    (by decide), by decide⟩

/-- C7. Lookup result: in a table of at most 65535 entries, `find_file(name)`
returns the contents, size and crc of the entry of lowest index whose filename
equals `name` as a whole string; so in a table of pairwise distinct filenames
`find_file(e.filename)` returns the contents, size and crc of `e`, for every
entry `e`. -/
theorem find_file_lookup (files : List embedded_file) (fuel size0 crc0 : Nat)
    (hn : files.length ≤ 65535) (hfuel : files.length < fuel) :
    (∀ (name : List Char) (j : Nat) (e : embedded_file), files[j]? = some e →
        e.filename = name →
        (∀ k f, k < j → files[k]? = some f → f.filename ≠ name) →
        find_file files name fuel size0 crc0 = some ⟨some e.contents, e.size, e.crc⟩)
      ∧ (files.Pairwise (fun a b => a.filename ≠ b.filename) →
          ∀ e ∈ files,
            find_file files e.filename fuel size0 crc0
              = some ⟨some e.contents, e.size, e.crc⟩) := by
  constructor
  · intro name j e hj he hbefore
    rw [find_file_eq files name size0 crc0 fuel hn hfuel,
      find?_of_first_index _ files j e hj (by simpa using he)
        (fun k f hk hf => by simpa using hbefore k f hk hf)]
    rfl
  · intro hpw e he
    obtain ⟨pre, post, rfl⟩ := List.append_of_mem he
    rw [find_file_eq _ e.filename size0 crc0 fuel hn hfuel,
      find?_first pre post e e.filename ?_ rfl]
    · rfl
    · intro f hf
      rw [List.pairwise_append] at hpw
      exact hpw.2.2 f hf e (by simp)

theorem find_file_lookup_witness :
    find_file sample_files ['f', 'w', '/', 'a'] 4 11 22
        = some ⟨some [0, 0xF0, 6, 0xF8, 1, 5, 0, 0, 0], 9, 493⟩
      ∧ find_file sample_files ['f', 'w', '/', 'e'] 4 11 22
        = some ⟨some [1, 2, 3, 0, 0, 0, 0], 7, 0⟩ :=
  ⟨(find_file_lookup sample_files 4 11 22 (by decide) (by decide)).1
      ['f', 'w', '/', 'a'] 1 sample_entry rfl rfl
      (fun k f hk hf => by
        obtain rfl : k = 0 := by omega
        obtain rfl : (⟨['f', 'w'], 4, 0, [0, 0, 0, 0]⟩ : embedded_file) = f := by
          simpa [sample_files] using hf
        decide),
    (find_file_lookup sample_files 4 11 22 (by decide) (by decide)).2 (by decide)
      sample_empty (by decide)⟩

/-! ## Properties of `dir_list` -/

theorem in_dir_iff (dirname path : List Char) :
    in_dir dirname path ↔ ∃ suffix, path = dirname ++ '/' :: suffix := by
  unfold in_dir
  constructor
  · rintro ⟨s, hs⟩
    exact ⟨s, by rw [← hs]; simp⟩
  · rintro ⟨s, rfl⟩
    exact ⟨s, by simp⟩

theorem not_in_dir_self (dirname : List Char) : ¬ in_dir dirname dirname := by
  rw [in_dir_iff]
  rintro ⟨s, hs⟩
  have := congrArg List.length hs
  simp at this

theorem not_in_dir_other (dirname : List Char) (c : Char) (s : List Char) (hc : c ≠ '/') :
    ¬ in_dir dirname (dirname ++ c :: s) := by
  rw [in_dir_iff]
  rintro ⟨t, ht⟩
  have := List.append_cancel_left ht
  simp at this
  exact hc this.1

/-- C8. Directory enumeration is exact: in a table of at most 65535 entries,
calling `dir_list(dirname, cursor)` from cursor 0 with the cursor threaded,
until it first returns `nullptr`, yields the filenames of the table that are
`dirname`, a separator and a (possibly empty) suffix, in table order, one for
each such table position; `dirname` itself and `dirname` followed by a
character other than the separator are never returned. -/
theorem dir_list_enumeration (files : List embedded_file) (dirname : List Char)
    (fuel calls : Nat) (hn : files.length ≤ 65535) (hfuel : files.length < fuel)
    (hcalls : files.length < calls) :
    ∃ paths, dir_list_all files dirname fuel calls 0 = some paths
      ∧ paths = (files.map (fun e => e.filename)).filter (fun p => decide (in_dir dirname p))
      ∧ (∀ p, p ∈ paths ↔
          (∃ e ∈ files, e.filename = p) ∧ ∃ suffix, p = dirname ++ '/' :: suffix)
      ∧ dirname ∉ paths
      ∧ ∀ (c : Char) (s : List Char), c ≠ '/' → dirname ++ c :: s ∉ paths := by
  refine ⟨_, dir_list_all_eq files dirname fuel hn hfuel calls 0 (by omega) (by omega),
    by rw [List.drop_zero], ?_, ?_, ?_⟩
  · intro p
    rw [List.drop_zero, List.mem_filter, List.mem_map, decide_eq_true_eq, in_dir_iff]
  · intro hm
    rw [List.drop_zero, List.mem_filter, decide_eq_true_eq] at hm
    exact not_in_dir_self dirname hm.2
  · intro c s hc hm
    rw [List.drop_zero, List.mem_filter, decide_eq_true_eq] at hm
    exact not_in_dir_other dirname c s hc hm.2

theorem dir_list_enumeration_witness :
    (∃ paths, dir_list_all listing_files ['a', '/', 'b'] 6 6 0 = some paths
      ∧ paths = (listing_files.map (fun e => e.filename)).filter
          (fun p => decide (in_dir ['a', '/', 'b'] p))
      ∧ (∀ p, p ∈ paths ↔
          (∃ e ∈ listing_files, e.filename = p) ∧ ∃ suffix, p = ['a', '/', 'b'] ++ '/' :: suffix)
      ∧ ['a', '/', 'b'] ∉ paths
      ∧ ∀ (c : Char) (s : List Char), c ≠ '/' → ['a', '/', 'b'] ++ c :: s ∉ paths)
    ∧ dir_list_all listing_files ['a', '/', 'b'] 6 6 0
        = some [['a', '/', 'b', '/', 'x'], ['a', '/', 'b', '/']] :=
  ⟨dir_list_enumeration listing_files ['a', '/', 'b'] 6 6 (by decide) (by decide) (by decide),
    by decide⟩

/-- C9. Cursor semantics of `dir_list`: in a table of `n ≤ 65535` entries, for
a starting cursor `c ≤ n`: if some index `j ≥ c` matches, the call returns the
filename at the least such `j` and sets the cursor to `j + 1`; if none does,
it returns `nullptr` and sets the cursor to `n`; and a call with cursor `n`
returns `nullptr` and leaves the cursor at `n`. -/
theorem dir_list_cursor (files : List embedded_file) (dirname : List Char) (fuel c : Nat)
    (hn : files.length ≤ 65535) (hc : c ≤ files.length) (hfuel : files.length - c < fuel) :
    (∀ (j : Nat) (e : embedded_file), files[j]? = some e → c ≤ j →
        in_dir dirname e.filename →
        (∀ k f, c ≤ k → k < j → files[k]? = some f → ¬ in_dir dirname f.filename) →
        dir_list files dirname fuel c = some ⟨some e.filename, j + 1⟩)
      ∧ ((∀ k f, c ≤ k → files[k]? = some f → ¬ in_dir dirname f.filename) →
          dir_list files dirname fuel c = some ⟨none, files.length⟩)
      ∧ dir_list files dirname fuel files.length = some ⟨none, files.length⟩ := by
  refine ⟨?_, ?_, ?_⟩
  · intro j e hj hcj he hbefore
    rw [dir_list_eq_scan files dirname hn fuel c hc hfuel,
      dir_scan_found dirname (files.drop c) c (j - c) e ?_ he ?_]
    · rw [(by omega : c + (j - c) + 1 = j + 1)]
    · rw [List.getElem?_drop, (by omega : c + (j - c) = j)]
      exact hj
    · intro k f hk hf
      rw [List.getElem?_drop] at hf
      exact hbefore (c + k) f (by omega) (by omega) hf
  · intro hnone
    rw [dir_list_eq_scan files dirname hn fuel c hc hfuel, dir_scan_none dirname _ c ?_]
    · rw [List.length_drop, (by omega : c + (files.length - c) = files.length)]
    · intro f hf
      obtain ⟨k, hk⟩ := List.mem_iff_getElem?.1 hf
      rw [List.getElem?_drop] at hk
      exact hnone (c + k) f (by omega) hk
  · rw [dir_list_eq_scan files dirname hn fuel files.length (Nat.le_refl _) (by omega),
      List.drop_length]
    rfl

theorem dir_list_cursor_witness :
    dir_list listing_files ['a', '/', 'b'] 6 1 = some ⟨some ['a', '/', 'b', '/'], 4⟩
      ∧ dir_list listing_files ['a', '/', 'b'] 6 4 = some ⟨none, 5⟩
      ∧ dir_list listing_files ['a', '/', 'b'] 6 5 = some ⟨none, 5⟩ :=
  ⟨(dir_list_cursor listing_files ['a', '/', 'b'] 6 1 (by decide) (by decide) (by decide)).1
      3 ⟨['a', '/', 'b', '/'], 0, 0, []⟩ rfl (by decide) (by decide)
      (fun k f h1 h2 hf => by
        have hk : k = 1 ∨ k = 2 := by omega
        rcases hk with rfl | rfl
        · obtain rfl : (⟨['a', '/', 'b'], 0, 0, []⟩ : embedded_file) = f := by
            simpa [listing_files] using hf
          decide
        · obtain rfl : (⟨['a', '/', 'b', 'c'], 0, 0, []⟩ : embedded_file) = f := by
            simpa [listing_files] using hf
          decide),
    (dir_list_cursor listing_files ['a', '/', 'b'] 6 4 (by decide) (by decide) (by decide)).2.1
      (fun k f h1 hf => by
        have hlt : k < listing_files.length := by
          by_contra hge
          rw [List.getElem?_eq_none (Nat.le_of_not_lt hge)] at hf
          exact absurd hf (by simp)
        have hk : k = 4 := by
          have : listing_files.length = 5 := rfl
          omega
        subst hk
        obtain rfl : (⟨['a', '/', 'b', 'c', '/', 'y'], 0, 0, []⟩ : embedded_file) = f := by
          simpa [listing_files] using hf
        decide),
    (dir_list_cursor listing_files ['a', '/', 'b'] 6 5 (by decide) (by decide) (by decide)).2.2⟩

/-! ## Properties of `armthumb_code` -/

/-- C2 (amended). Instruction filter involution at even base positions: for
every byte buffer, every size and every even `now_pos`, `armthumb_code` in the
encode direction followed by the decode direction with the same `now_pos`
gives back the original bytes, and so does decode followed by encode. -/
theorem armthumb_code_round_trip (now_pos : Nat) (buffer : List Nat) (size : Nat)
    (hpos : now_pos % 2 = 0) (hb : ∀ b ∈ buffer, b < 256) :
    (armthumb_code now_pos false (armthumb_code now_pos true buffer size).1 size).1 = buffer
      ∧ (armthumb_code now_pos true (armthumb_code now_pos false buffer size).1 size).1
        = buffer :=
  ⟨armthumb_code_involution now_pos true buffer size hpos hb,
    armthumb_code_involution now_pos false buffer size hpos hb⟩

theorem armthumb_code_round_trip_witness :
    (armthumb_code 6 true [0x12, 0xF3, 0x34, 0xFD, 7, 0xF1, 0xFF, 0xFF, 3] 9).1
        = [0x12, 0xF3, 0x39, 0xFD, 8, 0xF1, 6, 0xF8, 3]
      ∧ ((armthumb_code 6 false
            (armthumb_code 6 true [0x12, 0xF3, 0x34, 0xFD, 7, 0xF1, 0xFF, 0xFF, 3] 9).1 9).1
          = [0x12, 0xF3, 0x34, 0xFD, 7, 0xF1, 0xFF, 0xFF, 3]
        ∧ (armthumb_code 6 true
            (armthumb_code 6 false [0x12, 0xF3, 0x34, 0xFD, 7, 0xF1, 0xFF, 0xFF, 3] 9).1 9).1
          = [0x12, 0xF3, 0x34, 0xFD, 7, 0xF1, 0xFF, 0xFF, 3]) :=
  ⟨by decide, armthumb_code_round_trip 6 [0x12, 0xF3, 0x34, 0xFD, 7, 0xF1, 0xFF, 0xFF, 3] 9
    (by decide) (by decide)⟩

/-- C2 as stated fails at an odd base position: with `now_pos = 1`, encoding and
then decoding the window `00 F0 00 F8` yields `FF F7 FF FF`. -/
theorem armthumb_code_odd_position :
    (armthumb_code 1 true [0x00, 0xF0, 0x00, 0xF8] 4).1 = [0x00, 0xF0, 0x02, 0xF8]
      ∧ (armthumb_code 1 false (armthumb_code 1 true [0x00, 0xF0, 0x00, 0xF8] 4).1 4).1
        = [0xFF, 0xF7, 0xFF, 0xFF]
      ∧ (armthumb_code 1 false (armthumb_code 1 true [0x00, 0xF0, 0x00, 0xF8] 4).1 4).1
        ≠ [0x00, 0xF0, 0x00, 0xF8] := by
  decide

/-! ## Passthrough mode -/

/-- C11. Passthrough mode: when the build defines `HAL_ROMFS_UNCOMPRESSED`,
for every name (table of at most 65535 entries) `find_decompress` returns the
pointer `find_file` returns and, when that is not `nullptr`, the size
`find_file` reports; it returns `nullptr`, with `size` untouched, exactly when
`find_file` does; it calls neither `malloc` nor the inflater and compares no
crc, so it returns the contents and size of the first entry named `name`
whatever the stored crc and the host are; and `free` leaves the allocator's
state, and so its argument, untouched. -/
theorem find_decompress_passthrough {σ : Type} (h : Host) (files : List embedded_file)
    (name : List Char) (fuel size0 s c : Nat) (host_free : σ → List Nat → σ) (heap : σ)
    (data : List Nat) (hn : files.length ≤ 65535) (hfuel : files.length < fuel) :
    ∃ r res, find_file files name fuel s c = some r
      ∧ find_decompress h true files name fuel size0 = some res
      ∧ res.ret = r.ret
      ∧ (r.ret ≠ none → res.size = r.size)
      ∧ (r.ret = none → res.size = size0)
      ∧ res.malloc_arg = none ∧ res.uzlib_args = none
      ∧ (∀ e, first_entry files name = some e →
          res.ret = some e.contents ∧ res.size = e.size)
      ∧ free true host_free heap data = heap := by
  refine ⟨_, _, find_file_eq files name s c fuel hn hfuel,
    find_decompress_eq h true files name fuel size0 hn hfuel, ?_⟩
  unfold first_entry
  cases files.find? (fun e => decide (e.filename = name)) with
  | none => simp [find_file_answer, free]
  | some e => simp [find_file_answer, free]

theorem find_decompress_passthrough_witness :
    (∃ r res, find_file sample_files ['f', 'w', '/', 'a'] 4 11 22 = some r
      ∧ find_decompress sample_host true sample_files ['f', 'w', '/', 'a'] 4 77 = some res
      ∧ res.ret = r.ret
      ∧ (r.ret ≠ none → res.size = r.size)
      ∧ (r.ret = none → res.size = 77)
      ∧ res.malloc_arg = none ∧ res.uzlib_args = none
      ∧ (∀ e, first_entry sample_files ['f', 'w', '/', 'a'] = some e →
          res.ret = some e.contents ∧ res.size = e.size)
      ∧ free true (fun (heap : List (List Nat)) data => heap.erase data)
          [[0, 0xF0, 6, 0xF8, 1, 5, 0, 0, 0]] [0, 0xF0, 6, 0xF8, 1, 5, 0, 0, 0]
        = [[0, 0xF0, 6, 0xF8, 1, 5, 0, 0, 0]])
    ∧ find_decompress sample_host true sample_files ['f', 'w', '/', 'a'] 4 77
        = some ⟨some [0, 0xF0, 6, 0xF8, 1, 5, 0, 0, 0], 9, none, none⟩
    ∧ sample_host.crc32_small 0 [0, 0xF0, 6, 0xF8, 1, 5, 0, 0, 0] ≠ 493 :=
  ⟨find_decompress_passthrough sample_host sample_files ['f', 'w', '/', 'a'] 4 77 11 22
    (fun (heap : List (List Nat)) data => heap.erase data)
    [[0, 0xF0, 6, 0xF8, 1, 5, 0, 0, 0]] [0, 0xF0, 6, 0xF8, 1, 5, 0, 0, 0]
    (by decide) (by decide), by decide, by decide⟩

/-! ## Further properties of `armthumb_code` -/

/-- C13. Filter involution at even base positions: for every byte buffer,
every size and every even `now_pos`, `armthumb_code` decode after encode and
encode after decode, with the same `now_pos`, both return the original buffer
byte for byte; in particular at `now_pos = 0`, the value `find_decompress`
passes. -/
theorem armthumb_code_involution_even (now_pos : Nat) (buffer : List Nat) (size : Nat)
    (hb : ∀ b ∈ buffer, b < 256) :
    (now_pos % 2 = 0 →
      (armthumb_code now_pos false (armthumb_code now_pos true buffer size).1 size).1 = buffer
        ∧ (armthumb_code now_pos true (armthumb_code now_pos false buffer size).1 size).1
          = buffer)
    ∧ (armthumb_code 0 false (armthumb_code 0 true buffer size).1 size).1 = buffer
    ∧ (armthumb_code 0 true (armthumb_code 0 false buffer size).1 size).1 = buffer :=
  ⟨fun hpos => ⟨armthumb_code_involution now_pos true buffer size hpos hb,
      armthumb_code_involution now_pos false buffer size hpos hb⟩,
    armthumb_code_involution 0 true buffer size rfl hb,
    armthumb_code_involution 0 false buffer size rfl hb⟩

theorem armthumb_code_involution_even_witness :
    ((4 : Nat) % 2 = 0 →
      (armthumb_code 4 false (armthumb_code 4 true [1, 0xF2, 3, 0xFC, 5, 6, 7] 7).1 7).1
          = [1, 0xF2, 3, 0xFC, 5, 6, 7]
        ∧ (armthumb_code 4 true (armthumb_code 4 false [1, 0xF2, 3, 0xFC, 5, 6, 7] 7).1 7).1
          = [1, 0xF2, 3, 0xFC, 5, 6, 7])
    ∧ (armthumb_code 0 false (armthumb_code 0 true [1, 0xF2, 3, 0xFC, 5, 6, 7] 7).1 7).1
        = [1, 0xF2, 3, 0xFC, 5, 6, 7]
    ∧ (armthumb_code 0 true (armthumb_code 0 false [1, 0xF2, 3, 0xFC, 5, 6, 7] 7).1 7).1
        = [1, 0xF2, 3, 0xFC, 5, 6, 7] :=
  armthumb_code_involution_even 4 [1, 0xF2, 3, 0xFC, 5, 6, 7] 7 (by decide)

/-- The 22-bit field of a window, assembled with shifts and ors, as a sum. -/
theorem window_field_eq (b0 b1 b2 b3 : Nat) (h0 : b0 < 256) (h2 : b2 < 256) :
    ((b1 &&& 7) <<< 19 ||| b0 <<< 11 ||| (b3 &&& 7) <<< 8 ||| b2)
      = (b1 % 8) * 2 ^ 19 + b0 * 2 ^ 11 + (b3 % 8) * 2 ^ 8 + b2 := by
  simp only [and7, Nat.shiftLeft_eq]
  have e1 : (b1 % 8) * 2 ^ 19 ||| b0 * 2 ^ 11 = (b1 % 8) * 2 ^ 19 + b0 * 2 ^ 11 :=
    or_eq_add 19 _ _ (by omega)
  have e2 : (b1 % 8) * 2 ^ 19 + b0 * 2 ^ 11 ||| (b3 % 8) * 2 ^ 8
      = (b1 % 8) * 2 ^ 19 + b0 * 2 ^ 11 + (b3 % 8) * 2 ^ 8 := by
    have := or_eq_add 11 ((b1 % 8) * 2 ^ 8 + b0) ((b3 % 8) * 2 ^ 8) (by omega)
    have e : ((b1 % 8) * 2 ^ 8 + b0) * 2 ^ 11 = (b1 % 8) * 2 ^ 19 + b0 * 2 ^ 11 := by ring
    rw [e] at this
    exact this
  have e3 : (b1 % 8) * 2 ^ 19 + b0 * 2 ^ 11 + (b3 % 8) * 2 ^ 8 ||| b2
      = (b1 % 8) * 2 ^ 19 + b0 * 2 ^ 11 + (b3 % 8) * 2 ^ 8 + b2 := by
    have := or_eq_add 8 ((b1 % 8) * 2 ^ 11 + b0 * 2 ^ 3 + b3 % 8) b2 (by omega)
    have e : ((b1 % 8) * 2 ^ 11 + b0 * 2 ^ 3 + b3 % 8) * 2 ^ 8
        = (b1 % 8) * 2 ^ 19 + b0 * 2 ^ 11 + (b3 % 8) * 2 ^ 8 := by ring
    rw [e] at this
    exact this
  rw [e1, e2, e3]

theorem and_FF (d : Nat) : d &&& 0xFF = d % 256 := Nat.and_pow_two_sub_one_eq_mod d 8

/-- The bytes of a matched window after one pass of the loop over it. -/
theorem armthumb_loop_window (np : Nat) (e : Bool) (size fuel i : Nat) (buffer : List Nat)
    (hs : i + 4 ≤ size) (hm : window_match buffer i) (d : Nat)
    (hd : d = armthumb_dest np e i (armthumb_src (buffer.getD i 0) (buffer.getD (i + 1) 0)
      (buffer.getD (i + 2) 0) (buffer.getD (i + 3) 0))) :
    (armthumb_loop np e size (fuel + 1) i buffer).1.getD i 0 = d / 2 ^ 11 % 256
      ∧ (armthumb_loop np e size (fuel + 1) i buffer).1.getD (i + 1) 0 = 240 + d / 2 ^ 19 % 8
      ∧ (armthumb_loop np e size (fuel + 1) i buffer).1.getD (i + 2) 0 = d % 256
      ∧ (armthumb_loop np e size (fuel + 1) i buffer).1.getD (i + 3) 0
        = 248 + d / 2 ^ 8 % 8 := by
  have hlen := window_match_lt _ _ hm
  rw [armthumb_loop_unfold, if_pos hs, if_pos hm, ← hd]
  rw [armthumb_loop_getD_below np e size fuel (i + 4) _ i (by omega),
    armthumb_loop_getD_below np e size fuel (i + 4) _ (i + 1) (by omega),
    armthumb_loop_getD_below np e size fuel (i + 4) _ (i + 2) (by omega),
    armthumb_loop_getD_below np e size fuel (i + 4) _ (i + 3) (by omega),
    armthumb_store_getD0 _ _ _ hlen, armthumb_store_getD1 _ _ _ hlen,
    armthumb_store_getD2 _ _ _ hlen, armthumb_store_getD3 _ _ _ hlen]
  exact ⟨rfl, rfl, rfl, rfl⟩

/-- A matching window at an offset the loop reaches is rewritten from the
bytes it holds when the loop starts: earlier iterations neither skip it nor
touch it. -/
theorem armthumb_loop_window_at (np : Nat) (e : Bool) (size : Nat) :
    ∀ (fuel i0 : Nat) (buffer : List Nat) (i d : Nat), i0 ≤ i → i % 2 = i0 % 2 →
      i + 4 ≤ size → size < i0 + 2 * fuel + 4 → window_match buffer i →
      d = armthumb_dest np e i (armthumb_src (buffer.getD i 0) (buffer.getD (i + 1) 0)
        (buffer.getD (i + 2) 0) (buffer.getD (i + 3) 0)) →
      (armthumb_loop np e size fuel i0 buffer).1.getD i 0 = d / 2 ^ 11 % 256
        ∧ (armthumb_loop np e size fuel i0 buffer).1.getD (i + 1) 0 = 240 + d / 2 ^ 19 % 8
        ∧ (armthumb_loop np e size fuel i0 buffer).1.getD (i + 2) 0 = d % 256
        ∧ (armthumb_loop np e size fuel i0 buffer).1.getD (i + 3) 0
          = 248 + d / 2 ^ 8 % 8 := by
  intro fuel
  induction fuel with
  | zero => intro i0 buffer i d h1 _ h3 h4; omega
  | succ fuel ih =>
    intro i0 buffer i d hle hpar hs hfuel hm hd
    by_cases heq : i0 = i
    · subst heq
      exact armthumb_loop_window np e size fuel i0 buffer hs hm d hd
    · have hs0 : i0 + 4 ≤ size := by omega
      rw [armthumb_loop_unfold, if_pos hs0]
      by_cases hm0 : window_match buffer i0
      · rw [if_pos hm0]
        have hne : i ≠ i0 + 2 := by
          rintro rfl
          have h1 := hm.1
          have h2 := hm0.2
          rw [(by omega : i0 + 2 + 1 = i0 + 3)] at h1
          rw [h2] at h1
          exact absurd h1 (by decide)
        generalize armthumb_dest np e i0
              (armthumb_src (buffer.getD i0 0) (buffer.getD (i0 + 1) 0)
                (buffer.getD (i0 + 2) 0) (buffer.getD (i0 + 3) 0)) = d0
        have hmW : window_match (armthumb_store buffer i0 d0) i := by
          unfold window_match at hm ⊢
          rw [armthumb_store_getD_out _ _ _ _ (by omega),
            armthumb_store_getD_out _ _ _ _ (by omega)]
          exact hm
        refine ih (i0 + 4) _ i d (by omega) (by omega) hs (by omega) hmW ?_
        rw [armthumb_store_getD_out _ _ _ _ (by omega),
          armthumb_store_getD_out _ _ _ _ (by omega),
          armthumb_store_getD_out _ _ _ _ (by omega),
          armthumb_store_getD_out _ _ _ _ (by omega)]
        exact hd
      · rw [if_neg hm0]
        exact ih (i0 + 2) buffer i d (by omega) (by omega) hs (by omega) hm hd

/-- C12. Filter arithmetic on a matched window: for every byte buffer and
every even offset `i` with `i + 4 ≤ size` whose window matches (these are the
matching offsets `armthumb_code` visits), let `s` be the field
`((buffer[i+1] & 7) << 19) | (buffer[i] << 11) | ((buffer[i+3] & 7) << 8) |
buffer[i+2]` and `q = now_pos + i + 4 (mod 2^32)`.  Then `s < 2^22` and the
call rewrites the window to the packing of `d = t >> 1`, where
`t = (2*s - q) mod 2^32` when decoding and `t = (q + 2*s) mod 2^32` when
encoding: `buffer[i+1] = 0xF0 | bits 21..19 of d`, `buffer[i] = bits 18..11`,
`buffer[i+3] = 0xF8 | bits 10..8`, `buffer[i+2] = bits 7..0`.  When decoding
with `now_pos = 0`, the stored field becomes `(s - (i + 4)/2) mod 2^22`. -/
theorem armthumb_window_arithmetic (now_pos : Nat) (is_encoder : Bool) (size i : Nat)
    (buffer : List Nat) (hb : ∀ b ∈ buffer, b < 256) (hi : i % 2 = 0)
    (hvisit : i + 4 ≤ size)
    (hm : (buffer.getD (i + 1) 0 &&& 0xF8) = 0xF0 ∧ (buffer.getD (i + 3) 0 &&& 0xF8) = 0xF8)
    (s q : Nat)
    (hs : s = ((buffer.getD (i + 1) 0 &&& 7) <<< 19 ||| buffer.getD i 0 <<< 11
      ||| (buffer.getD (i + 3) 0 &&& 7) <<< 8 ||| buffer.getD (i + 2) 0))
    (hq : q = (now_pos + i + 4) % 2 ^ 32) :
    s < 2 ^ 22
    ∧ ∃ t : Nat,
        (t : Int) = (if is_encoder then ((q : Int) + 2 * s) % 2 ^ 32
          else (2 * (s : Int) - q) % 2 ^ 32)
        ∧ (armthumb_code now_pos is_encoder buffer size).1.getD (i + 1) 0
            = (0xF0 ||| (((t >>> 1) >>> 19) &&& 0x7))
        ∧ (armthumb_code now_pos is_encoder buffer size).1.getD i 0
            = (((t >>> 1) >>> 11) &&& 0xFF)
        ∧ (armthumb_code now_pos is_encoder buffer size).1.getD (i + 3) 0
            = (0xF8 ||| (((t >>> 1) >>> 8) &&& 0x7))
        ∧ (armthumb_code now_pos is_encoder buffer size).1.getD (i + 2) 0
            = ((t >>> 1) &&& 0xFF)
        ∧ (is_encoder = false → now_pos = 0 →
            ((((0xF0 ||| (((t >>> 1) >>> 19) &&& 0x7)) &&& 7) <<< 19
              ||| (((t >>> 1) >>> 11) &&& 0xFF) <<< 11
              ||| ((0xF8 ||| (((t >>> 1) >>> 8) &&& 0x7)) &&& 7) <<< 8
              ||| ((t >>> 1) &&& 0xFF) : Nat) : Int)
              = ((s : Int) - ((i + 4) / 2 : Nat)) % 2 ^ 22) := by
  have h0 := getD_lt_of_bytes buffer hb i
  have h1 := getD_lt_of_bytes buffer hb (i + 1)
  have h2 := getD_lt_of_bytes buffer hb (i + 2)
  have h3 := getD_lt_of_bytes buffer hb (i + 3)
  have hsa := window_field_eq _ (buffer.getD (i + 1) 0) _ (buffer.getD (i + 3) 0) h0 h2
  rw [← hs] at hsa
  have hsrc := armthumb_src_eq _ (buffer.getD (i + 1) 0) _ (buffer.getD (i + 3) 0) h0 h2
  rw [← hsa] at hsrc
  have hs22 : s < 2 ^ 22 := by omega
  refine ⟨hs22, ?_⟩
  -- the value of `dest` before the right shift
  generalize ht : (if is_encoder then (now_pos + i % 2 ^ 32 + 4 + 2 * s) % 2 ^ 32
      else (2 * s + 2 ^ 32 - (now_pos + i % 2 ^ 32 + 4) % 2 ^ 32) % 2 ^ 32) = t
  have hdest : armthumb_dest now_pos is_encoder i (armthumb_src (buffer.getD i 0)
      (buffer.getD (i + 1) 0) (buffer.getD (i + 2) 0) (buffer.getD (i + 3) 0)) = t >>> 1 := by
    rw [hsrc, ← ht]
    rfl
  obtain ⟨w0, w1, w2, w3⟩ := armthumb_loop_window_at now_pos is_encoder size size 0 buffer i
    (t >>> 1) (Nat.zero_le _) (by omega) hvisit (by omega) hm hdest.symm
  refine ⟨t, ?_, ?_, ?_, ?_, ?_, ?_⟩
  · rw [← ht, hq]
    cases is_encoder
    · simp only [Bool.false_eq_true, if_false]
      omega
    · simp only [if_true]
      omega
  · exact w1.trans (store1_eq _).symm
  · rw [and_FF]
    simp only [Nat.shiftRight_eq_div_pow]
    simp only [Nat.shiftRight_eq_div_pow] at w0
    exact w0
  · exact w3.trans (store3_eq _).symm
  · rw [and_FF]
    exact w2
  · intro he hnp
    subst he hnp
    simp only [Bool.false_eq_true, if_false] at ht
    rw [store1_eq, store3_eq, and_FF, and_FF, Nat.shiftRight_eq_div_pow (t >>> 1) 11,
      window_field_eq _ _ _ _ (Nat.mod_lt _ (by decide)) (Nat.mod_lt _ (by decide))]
    rw [Nat.shiftRight_eq_div_pow t 1]
    omega

theorem armthumb_window_arithmetic_witness :
    (1611060 < 2 ^ 22
    ∧ ∃ t : Nat,
        (t : Int) = (if false then (((4 : Nat) : Int) + 2 * (1611060 : Nat)) % 2 ^ 32
          else (2 * ((1611060 : Nat) : Int) - (4 : Nat)) % 2 ^ 32)
        ∧ (armthumb_code 0 false [0x12, 0xF3, 0x34, 0xFD, 9] 5).1.getD (0 + 1) 0
            = (0xF0 ||| (((t >>> 1) >>> 19) &&& 0x7))
        ∧ (armthumb_code 0 false [0x12, 0xF3, 0x34, 0xFD, 9] 5).1.getD 0 0
            = (((t >>> 1) >>> 11) &&& 0xFF)
        ∧ (armthumb_code 0 false [0x12, 0xF3, 0x34, 0xFD, 9] 5).1.getD (0 + 3) 0
            = (0xF8 ||| (((t >>> 1) >>> 8) &&& 0x7))
        ∧ (armthumb_code 0 false [0x12, 0xF3, 0x34, 0xFD, 9] 5).1.getD (0 + 2) 0
            = ((t >>> 1) &&& 0xFF)
        ∧ (false = false → 0 = 0 →
            ((((0xF0 ||| (((t >>> 1) >>> 19) &&& 0x7)) &&& 7) <<< 19
              ||| (((t >>> 1) >>> 11) &&& 0xFF) <<< 11
              ||| ((0xF8 ||| (((t >>> 1) >>> 8) &&& 0x7)) &&& 7) <<< 8
              ||| ((t >>> 1) &&& 0xFF) : Nat) : Int)
              = (((1611060 : Nat) : Int) - ((0 + 4) / 2 : Nat)) % 2 ^ 22))
    ∧ (armthumb_code 0 false [0x12, 0xF3, 0x34, 0xFD, 9] 5).1 = [0x12, 0xF3, 0x32, 0xFD, 9] :=
  ⟨armthumb_window_arithmetic 0 false 5 0 [0x12, 0xF3, 0x34, 0xFD, 9] (by decide) (by decide)
    (by decide) (by decide) 1611060 4 (by decide) (by decide), by decide⟩

/-- A byte the loop changes lies in a window that matched, at an offset of the
parity of the start index. -/
theorem armthumb_loop_changed (np : Nat) (e : Bool) (size : Nat) :
    ∀ (fuel i0 : Nat) (buffer : List Nat) (k : Nat),
      (armthumb_loop np e size fuel i0 buffer).1[k]? ≠ buffer[k]? →
      ∃ i, i % 2 = i0 % 2 ∧ i0 ≤ i ∧ i + 4 ≤ size ∧ window_match buffer i ∧ i ≤ k
        ∧ k < i + 4 := by
  intro fuel
  induction fuel with
  | zero => intro i0 buffer k h; exact absurd rfl h
  | succ fuel ih =>
    intro i0 buffer k h
    rw [armthumb_loop_unfold] at h
    by_cases hs : i0 + 4 ≤ size
    · rw [if_pos hs] at h
      by_cases hm : window_match buffer i0
      · rw [if_pos hm] at h
        generalize armthumb_dest np e i0
              (armthumb_src (buffer.getD i0 0) (buffer.getD (i0 + 1) 0)
                (buffer.getD (i0 + 2) 0) (buffer.getD (i0 + 3) 0)) = d at h
        by_cases hk : (armthumb_loop np e size fuel (i0 + 4) (armthumb_store buffer i0 d)).1[k]?
            = (armthumb_store buffer i0 d)[k]?
        · rw [hk] at h
          have hin : ¬ (k < i0 ∨ i0 + 4 ≤ k) :=
            fun hout => h (armthumb_store_getElem?_out buffer i0 d k hout)
          exact ⟨i0, rfl, Nat.le_refl _, hs, hm, by omega, by omega⟩
        · obtain ⟨i, hp, hge, hsz, hmi, hik, hki⟩ := ih (i0 + 4) _ k hk
          refine ⟨i, by omega, by omega, hsz, ?_, hik, hki⟩
          unfold window_match at hmi ⊢
          rw [armthumb_store_getD_out _ _ _ _ (by omega),
            armthumb_store_getD_out _ _ _ _ (by omega)] at hmi
          exact hmi
      · rw [if_neg hm] at h
        obtain ⟨i, hp, hge, hsz, hmi, hik, hki⟩ := ih (i0 + 2) buffer k h
        exact ⟨i, by omega, by omega, hsz, hmi, hik, hki⟩
    · rw [if_neg hs] at h
      exact absurd rfl h

/-- C14. Filter frame: for every buffer, size, `now_pos` and direction,
`armthumb_code` leaves the top five bits of every odd-indexed byte unchanged,
so a window at an even offset matches after the call exactly when it matched
before; every byte it changes lies in a four-byte window at an even offset
`i` with `i + 4 ≤ size` that matched; and it leaves the whole buffer unchanged
when no such window matches, in particular whenever `size < 4`. -/
theorem armthumb_code_frame (now_pos : Nat) (is_encoder : Bool) (buffer : List Nat)
    (size : Nat) :
    (∀ k, k % 2 = 1 →
        ((armthumb_code now_pos is_encoder buffer size).1.getD k 0 &&& 0xF8)
          = (buffer.getD k 0 &&& 0xF8))
    ∧ (∀ i, i % 2 = 0 →
        (window_match (armthumb_code now_pos is_encoder buffer size).1 i
          ↔ window_match buffer i))
    ∧ (∀ k, (armthumb_code now_pos is_encoder buffer size).1[k]? ≠ buffer[k]? →
        ∃ i, i % 2 = 0 ∧ i + 4 ≤ size ∧ window_match buffer i ∧ i ≤ k ∧ k < i + 4)
    ∧ ((∀ i, i % 2 = 0 → i + 4 ≤ size → ¬ window_match buffer i) →
        (armthumb_code now_pos is_encoder buffer size).1 = buffer)
    ∧ (size < 4 → (armthumb_code now_pos is_encoder buffer size).1 = buffer) := by
  have htop : ∀ k, k % 2 = 1 →
      ((armthumb_code now_pos is_encoder buffer size).1.getD k 0 &&& 0xF8)
        = (buffer.getD k 0 &&& 0xF8) :=
    fun k hk => armthumb_loop_top5 now_pos is_encoder size size 0 buffer k (by omega)
  have hchg : ∀ k, (armthumb_code now_pos is_encoder buffer size).1[k]? ≠ buffer[k]? →
      ∃ i, i % 2 = 0 ∧ i + 4 ≤ size ∧ window_match buffer i ∧ i ≤ k ∧ k < i + 4 := by
    intro k hk
    obtain ⟨i, hp, _, hsz, hmi, hik, hki⟩ :=
      armthumb_loop_changed now_pos is_encoder size size 0 buffer k hk
    exact ⟨i, by omega, hsz, hmi, hik, hki⟩
  have hnone : (∀ i, i % 2 = 0 → i + 4 ≤ size → ¬ window_match buffer i) →
      (armthumb_code now_pos is_encoder buffer size).1 = buffer := by
    intro hno
    apply List.ext_getElem?
    intro k
    by_contra hk
    obtain ⟨i, hp, hsz, hmi, _, _⟩ := hchg k hk
    exact hno i hp hsz hmi
  refine ⟨htop, ?_, hchg, hnone, ?_⟩
  · intro i hi
    unfold window_match
    rw [htop (i + 1) (by omega), htop (i + 3) (by omega)]
  · intro hlt
    exact hnone (fun i _ hsz _ => by omega)

theorem armthumb_loop_stride2_unfold (np : Nat) (e : Bool) (size fuel i : Nat)
    (buffer : List Nat) :
    armthumb_loop_stride2 np e size (fuel + 1) i buffer =
      if i + 4 ≤ size then
        if window_match buffer i then
          armthumb_loop_stride2 np e size fuel (i + 2)
            (armthumb_store buffer i (armthumb_dest np e i
              (armthumb_src (buffer.getD i 0) (buffer.getD (i + 1) 0)
                (buffer.getD (i + 2) 0) (buffer.getD (i + 3) 0))))
        else armthumb_loop_stride2 np e size fuel (i + 2) buffer
      else (buffer, i) := by
  rfl

theorem top5_248_ne : ∀ x, x < 8 → ((248 + x) &&& 0xF8) ≠ 0xF0 := by decide

/-- After a window at `i` has been rewritten, no window matches at `i + 2`:
its first tested byte is the rewritten `buffer[i + 3]`, whose top five bits
are `0xF8`. -/
theorem no_match_after_store (buffer : List Nat) (i d : Nat) (h : i + 3 < buffer.length) :
    ¬ window_match (armthumb_store buffer i d) (i + 2) := by
  unfold window_match
  rw [(by omega : i + 2 + 1 = i + 3), armthumb_store_getD3 _ _ _ h]
  intro hc
  exact top5_248_ne _ (Nat.mod_lt _ (by decide)) hc.1

/-- With enough fuel on both sides, the two-byte-stride loop and the loop of
`armthumb_code` produce the same buffer. -/
theorem armthumb_loop_stride2_eq (np : Nat) (e : Bool) (size : Nat) :
    ∀ (f g i : Nat) (buffer : List Nat), size < i + 2 * f + 4 → size < i + 2 * g + 4 →
      (armthumb_loop_stride2 np e size g i buffer).1
        = (armthumb_loop np e size f i buffer).1 := by
  intro f
  induction f with
  | zero =>
    intro g i buffer hf _
    cases g with
    | zero => rfl
    | succ g => rw [armthumb_loop_stride2_unfold, if_neg (by omega)]; rfl
  | succ f ih =>
    intro g i buffer hf hg
    rw [armthumb_loop_unfold]
    by_cases hs : i + 4 ≤ size
    · obtain ⟨g1, rfl⟩ : ∃ g1, g = g1 + 1 := ⟨g - 1, by omega⟩
      rw [armthumb_loop_stride2_unfold, if_pos hs, if_pos hs]
      by_cases hm : window_match buffer i
      · rw [if_pos hm, if_pos hm]
        generalize armthumb_dest np e i
              (armthumb_src (buffer.getD i 0) (buffer.getD (i + 1) 0)
                (buffer.getD (i + 2) 0) (buffer.getD (i + 3) 0)) = d
        have hlen := window_match_lt _ _ hm
        by_cases hs2 : i + 2 + 4 ≤ size
        · obtain ⟨g2, rfl⟩ : ∃ g2, g1 = g2 + 1 := ⟨g1 - 1, by omega⟩
          rw [armthumb_loop_stride2_unfold, if_pos hs2,
            if_neg (no_match_after_store buffer i d hlen)]
          exact ih g2 (i + 4) _ (by omega) (by omega)
        · have h1 : (armthumb_loop_stride2 np e size g1 (i + 2) (armthumb_store buffer i d)).1
              = armthumb_store buffer i d := by
            cases g1 with
            | zero => rfl
            | succ g2 => rw [armthumb_loop_stride2_unfold, if_neg hs2]
          have h2 : (armthumb_loop np e size f (i + 4) (armthumb_store buffer i d)).1
              = armthumb_store buffer i d := by
            cases f with
            | zero => rfl
            | succ f2 => rw [armthumb_loop_unfold, if_neg (by omega)]
          rw [h1, h2]
      · rw [if_neg hm, if_neg hm]
        exact ih g1 (i + 2) buffer (by omega) (by omega)
    · rw [if_neg hs]
      cases g with
      | zero => rfl
      | succ g => rw [armthumb_loop_stride2_unfold, if_neg hs]

/-- C15. The extra skip after a match never changes the output: for every
buffer, size, `now_pos` and direction, the buffer produced by `armthumb_code`
equals the buffer produced by the variant that always advances by two bytes;
the window at the skipped offset cannot match, because the byte it tests
first is the rewritten second halfword's high byte, with top bits `0xF8`. -/
theorem armthumb_code_skip_irrelevant (now_pos : Nat) (is_encoder : Bool)
    (buffer : List Nat) (size : Nat) :
    (armthumb_code_stride2 now_pos is_encoder buffer size).1
        = (armthumb_code now_pos is_encoder buffer size).1
    ∧ ∀ (i d : Nat), i + 3 < buffer.length →
        ((armthumb_store buffer i d).getD (i + 3) 0 &&& 0xF8) = 0xF8
          ∧ ¬ ((armthumb_store buffer i d).getD (i + 2 + 1) 0 &&& 0xF8) = 0xF0 := by
  refine ⟨armthumb_loop_stride2_eq now_pos is_encoder size size size 0 buffer
    (by omega) (by omega), ?_⟩
  intro i d h
  rw [(by omega : i + 2 + 1 = i + 3), armthumb_store_getD3 _ _ _ h]
  exact ⟨top5_248 _ (Nat.mod_lt _ (by decide)), top5_248_ne _ (Nat.mod_lt _ (by decide))⟩

theorem armthumb_code_skip_sample :
    (armthumb_code_stride2 0 true [0, 0xF0, 0, 0xF8, 0, 0xF0, 0, 0xF8, 7] 9)
        = ([0, 0xF0, 2, 0xF8, 0, 0xF0, 4, 0xF8, 7], 6)
      ∧ (armthumb_code 0 true [0, 0xF0, 0, 0xF8, 0, 0xF0, 0, 0xF8, 7] 9)
        = ([0, 0xF0, 2, 0xF8, 0, 0xF0, 4, 0xF8, 7], 8) := by
  decide

theorem armthumb_loop_even (np : Nat) (e : Bool) (size : Nat) :
    ∀ (fuel i : Nat) (buffer : List Nat), i % 2 = 0 →
      (armthumb_loop np e size fuel i buffer).2 % 2 = 0 := by
  intro fuel
  induction fuel with
  | zero => intro i buffer h; exact h
  | succ fuel ih =>
    intro i buffer h
    rw [armthumb_loop_unfold]
    split
    · split
      · exact ih _ _ (by omega)
      · exact ih _ _ (by omega)
    · exact h

theorem armthumb_loop_le (np : Nat) (e : Bool) (size : Nat) :
    ∀ (fuel i : Nat) (buffer : List Nat), i ≤ size →
      (armthumb_loop np e size fuel i buffer).2 ≤ size := by
  intro fuel
  induction fuel with
  | zero => intro i buffer h; exact h
  | succ fuel ih =>
    intro i buffer h
    rw [armthumb_loop_unfold]
    split
    · split
      · exact ih _ _ (by omega)
      · exact ih _ _ (by omega)
    · exact h

theorem armthumb_loop_small (np : Nat) (e : Bool) (size : Nat) (hs : size < 4) (fuel : Nat)
    (buffer : List Nat) : armthumb_loop np e size fuel 0 buffer = (buffer, 0) := by
  cases fuel with
  | zero => rfl
  | succ f => rw [armthumb_loop_unfold, if_neg (by omega)]

/-- Every index the loop loads from or stores to lies below `size`. -/
theorem armthumb_accesses_lt (np : Nat) (e : Bool) (size : Nat) :
    ∀ (fuel i : Nat) (buffer : List Nat) (k : Nat),
      k ∈ armthumb_accesses np e size fuel i buffer → k < size := by
  intro fuel
  induction fuel with
  | zero => intro i buffer k h; simp [armthumb_accesses] at h
  | succ fuel ih =>
    intro i buffer k h
    unfold armthumb_accesses at h
    by_cases hs : i + 4 ≤ size
    · rw [if_pos hs] at h
      by_cases h1 : (buffer.getD (i + 1) 0 &&& 0xF8) = 0xF0
      · rw [if_pos h1] at h
        by_cases h3 : (buffer.getD (i + 3) 0 &&& 0xF8) = 0xF8
        · rw [if_pos h3] at h
          rcases List.mem_append.1 h with hk | hk
          · simp only [List.mem_cons, List.mem_singleton, List.not_mem_nil, or_false] at hk
            omega
          · exact ih _ _ k hk
        · rw [if_neg h3] at h
          rcases List.mem_append.1 h with hk | hk
          · simp only [List.mem_cons, List.mem_singleton, List.not_mem_nil, or_false] at hk
            omega
          · exact ih _ _ k hk
      · rw [if_neg h1] at h
        rcases List.mem_append.1 h with hk | hk
        · simp only [List.mem_cons, List.mem_singleton, List.not_mem_nil, or_false] at hk
          omega
        · exact ih _ _ k hk
    · rw [if_neg hs] at h
      simp at h

/-- C18. Filter bounds: for every buffer of length `L`, every `size ≤ L`,
every `now_pos` and direction, `armthumb_code` terminates (its loop leaves
through the exit test, and more fuel does not change the result), every index
it loads from or stores to is below `size`, bytes at indices from `size` on
are unchanged, and the returned value `r` is even with `r ≤ size`, `r = 0`
when `size < 4` and `r > size - 4` when `size ≥ 4`. -/
theorem armthumb_code_bounds (now_pos : Nat) (is_encoder : Bool) (buffer : List Nat)
    (size : Nat) (hsize : size ≤ buffer.length) :
    (∀ extra, armthumb_loop now_pos is_encoder size (size + extra) 0 buffer
        = armthumb_code now_pos is_encoder buffer size)
    ∧ size < (armthumb_code now_pos is_encoder buffer size).2 + 4
    ∧ (∀ extra, ∀ k ∈ armthumb_accesses now_pos is_encoder size (size + extra) 0 buffer,
        k < size ∧ k < buffer.length)
    ∧ (∀ k, size ≤ k → (armthumb_code now_pos is_encoder buffer size).1[k]? = buffer[k]?)
    ∧ (armthumb_code now_pos is_encoder buffer size).2 % 2 = 0
    ∧ (armthumb_code now_pos is_encoder buffer size).2 ≤ size
    ∧ (size < 4 → (armthumb_code now_pos is_encoder buffer size).2 = 0)
    ∧ (4 ≤ size → size - 4 < (armthumb_code now_pos is_encoder buffer size).2) := by
  have hexit : size < (armthumb_code now_pos is_encoder buffer size).2 + 4 :=
    armthumb_loop_exit now_pos is_encoder size size 0 buffer (by omega)
  refine ⟨fun extra => armthumb_loop_fuel now_pos is_encoder size size extra 0 buffer
      (by omega), hexit, ?_,
    fun k hk => armthumb_loop_getElem?_above now_pos is_encoder size size 0 buffer k hk,
    armthumb_loop_even now_pos is_encoder size size 0 buffer rfl,
    armthumb_loop_le now_pos is_encoder size size 0 buffer (Nat.zero_le _), ?_, ?_⟩
  · intro extra k hk
    have := armthumb_accesses_lt now_pos is_encoder size _ 0 buffer k hk
    exact ⟨this, by omega⟩
  · intro hlt
    unfold armthumb_code
    rw [armthumb_loop_small now_pos is_encoder size hlt]
  · intro _
    omega

theorem armthumb_code_bounds_witness :
    ((∀ extra, armthumb_loop 0 false 5 (5 + extra) 0 [0x12, 0xF3, 0x34, 0xFD, 9, 0]
        = armthumb_code 0 false [0x12, 0xF3, 0x34, 0xFD, 9, 0] 5)
    ∧ 5 < (armthumb_code 0 false [0x12, 0xF3, 0x34, 0xFD, 9, 0] 5).2 + 4
    ∧ (∀ extra, ∀ k ∈ armthumb_accesses 0 false 5 (5 + extra) 0 [0x12, 0xF3, 0x34, 0xFD, 9, 0],
        k < 5 ∧ k < [0x12, 0xF3, 0x34, 0xFD, 9, 0].length)
    ∧ (∀ k, 5 ≤ k → (armthumb_code 0 false [0x12, 0xF3, 0x34, 0xFD, 9, 0] 5).1[k]?
        = [0x12, 0xF3, 0x34, 0xFD, 9, 0][k]?)
    ∧ (armthumb_code 0 false [0x12, 0xF3, 0x34, 0xFD, 9, 0] 5).2 % 2 = 0
    ∧ (armthumb_code 0 false [0x12, 0xF3, 0x34, 0xFD, 9, 0] 5).2 ≤ 5
    ∧ (5 < 4 → (armthumb_code 0 false [0x12, 0xF3, 0x34, 0xFD, 9, 0] 5).2 = 0)
    ∧ (4 ≤ 5 → 5 - 4 < (armthumb_code 0 false [0x12, 0xF3, 0x34, 0xFD, 9, 0] 5).2))
    ∧ armthumb_code 0 false [0x12, 0xF3, 0x34, 0xFD, 9, 0] 5
        = ([0x12, 0xF3, 0x32, 0xFD, 9, 0], 4)
    ∧ armthumb_accesses 0 false 5 5 0 [0x12, 0xF3, 0x34, 0xFD, 9, 0]
        = [1, 3, 1, 0, 3, 2, 1, 0, 3, 2] :=
  ⟨armthumb_code_bounds 0 false [0x12, 0xF3, 0x34, 0xFD, 9, 0] 5 (by decide), by decide,
    by decide⟩

/-! ## The allocation request -/

/-- The compressed branch always passes `decompressed_size + 1`, reduced
modulo `2 ^ 32`, to the first `malloc`. -/
theorem decompress_entry_malloc_arg (h : Host) (data : List Nat) (size crc size0 : Nat) :
    (decompress_entry h data size crc size0).malloc_arg
      = some (malloc_request (trailer data size)) := by
  unfold decompress_entry
  simp only []
  split
  · rfl
  · split
    · rfl
    · split
      · rfl
      · split <;> rfl

/-- C16 at the trailer `0xFFFFFFFF`: whatever the host, `find_decompress`
passes `0` to the first `malloc`, not `2 ^ 32`, so the sentinel index
`2 ^ 32 - 1` is not below the number of bytes requested. -/
theorem find_decompress_request_wraps (h : Host) (size0 : Nat) :
    (∃ res, find_decompress h false overflow_files ['x'] 2 size0 = some res
      ∧ res.malloc_arg = some 0)
    ∧ trailer [0xFF, 0xFF, 0xFF, 0xFF] 4 = 4294967295
    ∧ malloc_request 4294967295 = 0
    ∧ ¬ (4294967295 < malloc_request 4294967295) := by
  have hfirst : first_entry overflow_files ['x']
      = some ⟨['x'], 4, 0, [0xFF, 0xFF, 0xFF, 0xFF]⟩ := by decide
  have htr : trailer [0xFF, 0xFF, 0xFF, 0xFF] 4 = 4294967295 := by decide
  have hreq : malloc_request 4294967295 = 0 := by decide
  refine ⟨⟨_, find_decompress_eq h false overflow_files ['x'] 2 size0 (by decide) (by decide),
    ?_⟩, htr, hreq, by rw [hreq]; decide⟩
  rw [hfirst]
  have := decompress_entry_malloc_arg h [0xFF, 0xFF, 0xFF, 0xFF] 4 0 size0
  rw [htr, hreq] at this
  exact this

/-! ## Further properties of `dir_list` -/

/-- Every load `filename[dlen]` of `dir_list` follows a successful `strncmp`:
the first `dlen` characters of the path are `dirname`. -/
theorem dir_list_reads_spec (files : List embedded_file) (dirname : List Char) :
    ∀ (fuel ofs : Nat) (path : List Char) (k : Nat),
      (path, k) ∈ dir_list_reads files dirname fuel ofs →
      k = strlen dirname ∧ dirname <+: path := by
  intro fuel
  induction fuel with
  | zero => intro ofs path k h; simp [dir_list_reads] at h
  | succ fuel ih =>
    intro ofs path k h
    unfold dir_list_reads at h
    by_cases ho : ofs < files.length
    · rw [dif_pos ho] at h
      by_cases hc : strncmp dirname files[ofs].filename (strlen dirname) = 0
      · rw [if_pos hc] at h
        rcases List.mem_cons.1 h with heq | hrest
        · obtain ⟨rfl, rfl⟩ := Prod.mk.inj heq
          exact ⟨rfl, (strncmp_eq_zero _ _).1 hc⟩
        · by_cases hsep : char_at files[ofs].filename (strlen dirname) = '/'
          · rw [if_pos hsep] at hrest
            simp at hrest
          · rw [if_neg hsep] at hrest
            exact ih _ _ _ hrest
      · rw [if_neg hc] at h
        exact ih _ _ _ h
    · rw [dif_neg ho] at h
      simp at h

/-- C17 (amended). The index in enumeration is guarded: for every table,
dirname, cursor and fuel, whenever `dir_list` loads the character at index
`len(dirname)` of a candidate path, the first `len(dirname)` characters of
that path are `dirname`, so the path has at least `len(dirname)` characters
and the load is at most at the index of its terminator. -/
theorem dir_list_read_in_bounds (files : List embedded_file) (dirname : List Char)
    (fuel ofs : Nat) (path : List Char) (k : Nat)
    (hread : (path, k) ∈ dir_list_reads files dirname fuel ofs) :
    k = strlen dirname ∧ dirname <+: path ∧ strlen dirname ≤ strlen path
      ∧ k ≤ strlen path := by
  obtain ⟨hk, hp⟩ := dir_list_reads_spec files dirname fuel ofs path k hread
  have hle : strlen dirname ≤ strlen path := by
    unfold strlen
    exact hp.length_le
  exact ⟨hk, hp, hle, by omega⟩

theorem dir_list_read_in_bounds_witness :
    dir_list_reads listing_files ['a', '/', 'b'] 6 1
        = [(['a', '/', 'b'], 3), (['a', '/', 'b', 'c'], 3), (['a', '/', 'b', '/'], 3)]
      ∧ (3 = strlen ['a', '/', 'b'] ∧ ['a', '/', 'b'] <+: ['a', '/', 'b']
        ∧ strlen ['a', '/', 'b'] ≤ strlen ['a', '/', 'b'] ∧ 3 ≤ strlen ['a', '/', 'b']) :=
  ⟨by decide, dir_list_read_in_bounds listing_files ['a', '/', 'b'] 6 1 ['a', '/', 'b'] 3
    (by decide)⟩

/-- C17 as stated fails: no table, dirname, cursor and fuel make `dir_list`
load the character at index `len(dirname)` of a path shorter than
`len(dirname)`. -/
theorem dir_list_no_unguarded_read :
    ¬ ∃ (files : List embedded_file) (dirname : List Char) (fuel ofs : Nat)
        (path : List Char),
        (path, strlen dirname) ∈ dir_list_reads files dirname fuel ofs
          ∧ strlen path < strlen dirname := by
  rintro ⟨files, dirname, fuel, ofs, path, hread, hshort⟩
  obtain ⟨_, hp⟩ := dir_list_reads_spec files dirname fuel ofs path _ hread
  have hle : strlen dirname ≤ strlen path := by
    unfold strlen
    exact hp.length_le
  omega

theorem dir_scan_ofs_le (d : List Char) :
    ∀ (rest : List embedded_file) (ofs : Nat), ofs ≤ (dir_scan d ofs rest).ofs := by
  intro rest
  induction rest with
  | nil => intro ofs; exact Nat.le_refl _
  | cons x rest ih =>
    intro ofs
    unfold dir_scan
    split
    · exact Nat.le_succ _
    · exact Nat.le_trans (Nat.le_succ _) (ih (ofs + 1))

/-- C19 (amended). The enumeration cursor only moves forward in a table of at
most 65535 entries: for every dirname and every cursor value, a call to
`dir_list` terminates and the cursor after the call is greater than or equal
to the cursor before the call. -/
theorem dir_list_cursor_forward (files : List embedded_file) (dirname : List Char)
    (fuel c : Nat) (hn : files.length ≤ 65535) (hfuel : files.length - c < fuel) :
    ∃ r, dir_list files dirname fuel c = some r ∧ c ≤ r.ofs := by
  by_cases hc : c ≤ files.length
  · exact ⟨_, dir_list_eq_scan files dirname hn fuel c hc hfuel, dir_scan_ofs_le _ _ _⟩
  · obtain ⟨f, rfl⟩ : ∃ f, fuel = f + 1 := ⟨fuel - 1, by omega⟩
    refine ⟨⟨none, c⟩, ?_, Nat.le_refl _⟩
    unfold dir_list
    rw [dif_neg (by omega)]

theorem dir_list_cursor_forward_witness :
    (∃ r, dir_list listing_files ['a', '/', 'b'] 6 1 = some r ∧ 1 ≤ r.ofs)
      ∧ dir_list listing_files ['a', '/', 'b'] 6 1 = some ⟨some ['a', '/', 'b', '/'], 4⟩
      ∧ dir_list listing_files ['a', '/', 'b'] 6 60000 = some ⟨none, 60000⟩ :=
  ⟨dir_list_cursor_forward listing_files ['a', '/', 'b'] 6 1 (by decide) (by decide),
    by decide, by decide⟩

theorem wide_files_length : wide_files.length = 65536 := List.length_replicate _ _

theorem wide_files_other_length : wide_files_other.length = 65536 :=
  List.length_replicate _ _

/-- In a table of 65536 entries none of which matches, the call never
returns: every amount of fuel runs out. -/
theorem dir_list_wide_none :
    ∀ (fuel ofs : Nat), ofs < 65536 → dir_list wide_files_other ['d'] fuel ofs = none := by
  intro fuel
  induction fuel with
  | zero => intro ofs _; rfl
  | succ fuel ih =>
    intro ofs ho
    unfold dir_list
    have hlt : ofs < wide_files_other.length := by rw [wide_files_other_length]; exact ho
    rw [dif_pos hlt]
    have hget : wide_files_other[ofs] = ⟨['e'], 0, 0, []⟩ := by
      unfold wide_files_other
      exact List.getElem_replicate _ _
    rw [hget, if_neg (by decide)]
    exact ih _ (Nat.mod_lt _ (by decide))

/-- C19 as stated fails in a table of 65536 entries: from cursor 65535 a call
that matches the last entry returns with the cursor wrapped to 0, and when no
entry matches the call from cursor 0 does not terminate. -/
theorem dir_list_cursor_wraps :
    dir_list wide_files ['d'] 1 65535 = some ⟨some ['d', '/', 'f'], 0⟩
      ∧ ¬ (65535 ≤ (0 : Nat))
      ∧ ∀ fuel, dir_list wide_files_other ['d'] fuel 0 = none := by
  refine ⟨?_, by decide, fun fuel => dir_list_wide_none fuel 0 (by decide)⟩
  unfold dir_list
  have hlt : 65535 < wide_files.length := by rw [wide_files_length]; decide
  rw [dif_pos hlt]
  have hget : wide_files[65535] = ⟨['d', '/', 'f'], 0, 0, []⟩ := by
    unfold wide_files
    exact List.getElem_replicate _ _
  rw [hget, if_pos (by decide)]
  rfl

end AP_ROMFS
